import Mathlib

/-!
# StudentNotesTaking: the production entry store

A shallow embedding of `pkg/state/production/production.go`: the tag grammar
(`reHashTag`, `reSpaces`, `encodeEntryTags`, `encodeTag`, `encodeEntryText`),
the snapshot encoder (`encodeEntries`, `encodeError`, `encodeResponse`) and the
entry store (`New`, `Current`, `EntryCreate`, `EntryUpdate`, `EntryDelete`,
`EntrySearch`) over an explicit model of the SQLite storage.

Conventions.
* A Go `string` is a `List Char` (`Str`): the sequence of its code points.
* A Go slice that may be `nil` is an `Option (List _)`, `none` being `nil`.
* `int64` values are `Int`; the program does no arithmetic on them.
* What the outside world supplies to a call (the clock reading, storage
  failures, the answer of the FTS5 `MATCH` operator) is an explicit `World`.
-/

namespace Production

/-- A Go string, as the list of its code points. -/
abbrev Str := List Char

/-! ## Character classes of the two regular expressions -/

/-- The class `\w` of Go's `regexp` (RE2 syntax): `[0-9A-Za-z_]`, ASCII only. -/
def isWord (c : Char) : Bool :=
  ('0' ≤ c && c ≤ '9') || ('A' ≤ c && c ≤ 'Z') || c == '_' || ('a' ≤ c && c ≤ 'z')

/-- The bracket expression `[\w-:=,.]` of `reHashTag`: after the class escape
`\w` the `-` is a literal, so the class is `\w` plus `-`, `:`, `=`, `,`, `.`. -/
def isTagChar (c : Char) : Bool :=
  isWord c || c == '-' || c == ':' || c == '=' || c == ',' || c == '.'

/-- The class `\s` of Go's `regexp`: `[\t\n\f\r ]`. -/
def isSpaceRE (c : Char) : Bool :=
  c == '\t' || c == '\n' || c == '\x0c' || c == '\r' || c == ' '

/-- Go's `unicode.IsSpace`, the predicate `strings.TrimSpace` trims with: in
Latin-1 the characters `\t \n \v \f \r`, space, U+0085 and U+00A0; above it the
`White_Space` property. -/
def unicodeIsSpace (c : Char) : Bool :=
  let n := c.toNat
  (0x09 ≤ n && n ≤ 0x0d) || n == 0x20 || n == 0x85 || n == 0xa0 || n == 0x1680 ||
    (0x2000 ≤ n && n ≤ 0x200a) || n == 0x2028 || n == 0x2029 || n == 0x202f ||
    n == 0x205f || n == 0x3000

/-- Whether the (possibly missing) character counts as a word character for
the assertions `\b` and `\B`; the start and the end of the text do not. -/
def isWordAt : Option Char → Bool
  | none => false
  | some c => isWord c

/-- The assertion `\B`: the position between `prev` and `next` is not an ASCII
word boundary. -/
def notWordBoundary (prev next : Option Char) : Bool :=
  isWordAt prev == isWordAt next

/-! ## The matching loop of `regexp`

`FindAllString` and `ReplaceAllString` walk the text from left to right: at
the current position they take the match that starts there, if there is one,
and go on after its end; otherwise they move one character on. Neither
pattern of this program matches the empty string. -/

/-- A compiled pattern, for the matching loop: given the character before the
current position and the text from the current position on, the length of the
match that starts at the current position, if any. -/
abbrev Pattern := Option Char → Str → Option Nat

/-- One piece of the scanned text: a character outside every match, or a
match together with the offset it starts at. -/
inductive Piece where
  | keep (c : Char)
  | hit (start : Nat) (m : Str)
  deriving DecidableEq

/-- The matching loop. `skip` counts the characters of the current match that
are still to be stepped over, `pos` is the offset of the current position and
`prev` the character before it. -/
def scan (p : Pattern) : Nat → Nat → Option Char → Str → List Piece
  | _, _, _, [] => []
  | skip + 1, pos, _, c :: rest => scan p skip (pos + 1) (some c) rest
  | 0, pos, prev, c :: rest =>
    match p prev (c :: rest) with
    | some (n + 1) =>
      Piece.hit pos ((c :: rest).take (n + 1)) :: scan p n (pos + 1) (some c) rest
    | _ => Piece.keep c :: scan p 0 (pos + 1) (some c) rest

/-- The pieces of a whole text. -/
def pieces (p : Pattern) (text : Str) : List Piece :=
  scan p 0 0 none text

/-- Go's `(*Regexp).FindAllStringIndex(text, -1)`, with the matched text
instead of the end offset: the matches with the offsets they start at. -/
def findAllIndexed (p : Pattern) (text : Str) : List (Nat × Str) :=
  (pieces p text).filterMap fun
    | Piece.keep _ => none
    | Piece.hit i m => some (i, m)

/-- Go's `(*Regexp).FindAllString(text, -1)`: the matches, left to right. -/
def FindAllString (p : Pattern) (text : Str) : List Str :=
  (findAllIndexed p text).map Prod.snd

/-- The text a piece contributes to the result of a replacement. -/
def Piece.render (repl : Str) : Piece → Str
  | Piece.keep c => [c]
  | Piece.hit _ _ => repl

/-- The pieces put together again, every match replaced by `repl`. -/
def renderAll (repl : Str) : List Piece → Str
  | [] => []
  | q :: qs => q.render repl ++ renderAll repl qs

/-- Go's `(*Regexp).ReplaceAllString(text, repl)` for a replacement without
`$`: every match is replaced by `repl`, the rest is copied. -/
def ReplaceAllString (p : Pattern) (text repl : Str) : Str :=
  renderAll repl (pieces p text)

/-- The pattern `\B#\w[\w-:=,.]+`: not at a word boundary, then `#`, one
word character, and one or more characters of the bracket class (greedy). -/
def reHashTag : Pattern := fun prev s =>
  match s with
  | h :: w :: c :: rest =>
    if notWordBoundary prev (some h) && h == '#' && isWord w && isTagChar c then
      some (3 + (rest.takeWhile isTagChar).length)
    else none
  | _ => none

/-- The pattern `\s\s+`: two or more whitespace characters (greedy). -/
def reSpaces : Pattern := fun _ s =>
  match s with
  | a :: b :: rest =>
    if isSpaceRE a && isSpaceRE b then
      some (2 + (rest.takeWhile isSpaceRE).length)
    else none
  | _ => none

/-! ## Library functions of `strings` -/

/-- Go's `strings.TrimPrefix(s, "#")`. -/
def TrimPrefixHash : Str → Str
  | c :: rest => if c == '#' then rest else c :: rest
  | [] => []

/-- Go's `strings.Split(s, sep)` for a separator of one character: the
pieces between the occurrences of `sep`, one more than there are occurrences. -/
def Split (s : Str) (sep : Char) : List Str :=
  match s with
  | [] => [[]]
  | c :: rest =>
    if c == sep then [] :: Split rest sep
    else
      match Split rest sep with
      | [] => [[c]]
      | part :: parts => (c :: part) :: parts

/-- Go's `strings.TrimSpace`: the text without its leading and trailing
white space, as `unicode.IsSpace` defines it. -/
def TrimSpace (s : Str) : Str :=
  (s.dropWhile unicodeIsSpace).rdropWhile unicodeIsSpace

/-! ## The tag grammar -/

/-- The Go struct `tag`. -/
structure tag where
  ID : Str
  Namespace : Str
  Key : Str
  Value : Str
  deriving DecidableEq

/-- The closure `splitter` of `encodeTag`: both parts when `Split` yields
exactly two, otherwise an empty left part and the whole string. -/
def splitter (str : Str) (char : Char) : Str × Str :=
  match Split str char with
  | [a, b] => (a, b)
  | _ => ([], str)

/-- The Go function `encodeTag`. -/
def encodeTag (str : Str) : tag :=
  let id := TrimPrefixHash str
  let (namespace_, value) := splitter id ':'
  let (key, value) := splitter value '='
  { ID := id, Namespace := namespace_, Key := key, Value := value }

/-- The Go function `encodeEntryTags`. -/
def encodeEntryTags (text : Str) : List tag :=
  (FindAllString reHashTag text).map encodeTag

/-- The Go function `encodeEntryText`. -/
def encodeEntryText (text : Str) : Str :=
  let cleaned := ReplaceAllString reHashTag text [' ']
  let cleaned := ReplaceAllString reSpaces cleaned [' ']
  TrimSpace cleaned

/-! ## Errors and snapshots -/

/-- The Go struct `Error`; the wrapped `Err` is kept as its message. -/
structure Error where
  Code : Str
  Err : Str
  deriving DecidableEq

/-- A Go value of interface type `error`, as `encodeError` tells them apart
in its type switch: an `Error`, a `*Error`, or any other error. -/
inductive GoError where
  | value (e : Error)
  | pointer (e : Error)
  | other (message : Str)
  deriving DecidableEq

/-- The fragment of `fmt.Sprintf` this program uses: the verb `%s` with a
string operand (and `%%`); a `%s` without operand prints `%!s(MISSING)`. -/
def Sprintf : Str → List Str → Str
  | '%' :: 's' :: rest, a :: args => a ++ Sprintf rest args
  | '%' :: 's' :: rest, [] => "%!s(MISSING)".toList ++ Sprintf rest []
  | '%' :: '%' :: rest, args => '%' :: Sprintf rest args
  | c :: rest, args => c :: Sprintf rest args
  | [], _ => []

/-- The Go function `NewError`. -/
def NewError (code message : Str) (a : List Str) : GoError :=
  GoError.value { Code := code, Err := Sprintf message a }

/-- The Go function `ErrorProgrammerFailure`. -/
def ErrorProgrammerFailure (message : Str) (a : List Str) : GoError :=
  NewError "ProgrammerFailure".toList message a

/-- The Go struct `entry`. `Tags` is not a column of the table: rows read
from storage carry no tags. -/
structure entry where
  ID : Int
  Text : Str
  Color : Int
  Tags : List tag
  Created : Int
  Modified : Int
  deriving DecidableEq

/-- The Go struct `snapshot`; `Entries = none` is the `nil` slice and
`Error = none` the `nil` pointer. -/
structure snapshot where
  Entries : Option (List entry)
  Error : Option Error
  deriving DecidableEq

/-- The object `Error.MarshalJSON` renders: `code` and `message`. -/
structure WireError where
  code : Str
  message : Str
  deriving DecidableEq

/-- The Go method `Error.MarshalJSON`. -/
def Error.MarshalJSON (e : Error) : WireError :=
  { code := e.Code, message := e.Err }

/-- The JSON document of a snapshot, as a structure: `entries` is `none` for
JSON `null`, `error` is `none` for JSON `null`. -/
structure Response where
  entries : Option (List entry)
  error : Option WireError
  deriving DecidableEq

/-- The Go function `encodeResponse`: `json.Marshal` of the snapshot, which
does not fail on these types. -/
def encodeResponse (s : snapshot) : Response :=
  { entries := s.Entries, error := s.Error.map Error.MarshalJSON }

/-- The body of the loop of `encodeEntries` at index `i`: `entry` is the copy
of `entries[i]` the `range` clause takes, and both assignments read it. -/
def encodeEntriesBody (entries : List entry) (i : Nat) : List entry :=
  match entries[i]? with
  | none => entries
  | some entry =>
    let entries := entries.modify (fun e => { e with Tags := encodeEntryTags entry.Text }) i
    entries.modify (fun e => { e with Text := encodeEntryText entry.Text }) i

/-- The Go function `encodeEntries`. -/
def encodeEntries (entries : Option (List entry)) : Response :=
  let entries := match entries with
    | none => []
    | some es => es
  let entries := (List.range entries.length).foldl encodeEntriesBody entries
  encodeResponse { Entries := some entries, Error := none }

/-- The Go function `encodeError`. -/
def encodeError (err : GoError) : Response :=
  let s : snapshot := { Entries := some [], Error := none }
  let s : snapshot :=
    match err with
    | GoError.value v => { s with Error := some v }
    | GoError.pointer v => { s with Error := some v }
    | GoError.other m => { s with Error := some { Code := "Unknown".toList, Err := m } }
  encodeResponse s

/-! ## The storage

The SQLite database behind `sqlx.DB`: the table `entry`, the FTS5 table
`entry_index`, the `AUTOINCREMENT` counter of `entry` and the triggers. A
statement either succeeds, changing the database, or fails and leaves it as
it was. -/

/-- A row of the table `entry`. -/
structure Row where
  id : Int
  text : Str
  color : Int
  created : Int
  modified : Int
  deriving DecidableEq

/-- The event a trigger is attached to, on table `entry`. -/
inductive Event where
  | afterInsert
  | afterUpdateOfText
  | afterDelete
  deriving DecidableEq

/-- The statement in the body of a trigger. -/
inductive IndexStmt where
  /-- The statement `INSERT INTO entry_index (rowid, text) VALUES (new.id, new.text)`. -/
  | insertNew
  /-- The statement `UPDATE entry_index SET text = new.text WHERE rowid = old.id`. -/
  | updateOld
  /-- The statement `DELETE FROM entry_index WHERE rowid = old.id`. -/
  | deleteOld
  deriving DecidableEq

/-- A trigger of the schema. -/
structure Trigger where
  name : Str
  event : Event
  body : IndexStmt
  deriving DecidableEq

/-- The database. -/
structure DB where
  entry : List Row
  entry_index : List (Int × Str)
  sequence : Int
  triggers : List Trigger
  deriving DecidableEq

/-- Storage on which nothing has been created yet. -/
def DB.fresh : DB :=
  { entry := [], entry_index := [], sequence := 0, triggers := [] }

/-- The statement `CREATE TRIGGER IF NOT EXISTS`: nothing happens when a trigger of that
name exists already, whatever its event and body. -/
def DB.createTriggerIfNotExists (db : DB) (t : Trigger) : DB :=
  if db.triggers.any (fun u => u.name == t.name) then db
  else { db with triggers := db.triggers ++ [t] }

/-- The three `CREATE TRIGGER IF NOT EXISTS` statements of `New`, in the
order of the script, each with the name, event and body written there. -/
def schemaTriggers : List Trigger :=
  [ { name := "after_entry_insert".toList, event := Event.afterInsert, body := IndexStmt.insertNew },
    { name := "after_entry_update".toList, event := Event.afterUpdateOfText, body := IndexStmt.updateOld },
    { name := "after_entry_insert".toList, event := Event.afterDelete, body := IndexStmt.deleteOld } ]

/-- One statement of a trigger body, run on the index for the row change
`old → new`. An FTS5 insert under a rowid that is taken fails. -/
def IndexStmt.exec (old new : Row) (index : List (Int × Str)) :
    IndexStmt → Except Str (List (Int × Str))
  | IndexStmt.insertNew =>
    if index.any (fun r => r.1 == new.id) then Except.error "constraint failed".toList
    else Except.ok (index ++ [(new.id, new.text)])
  | IndexStmt.updateOld =>
    Except.ok (index.map fun r => if r.1 == old.id then (r.1, new.text) else r)
  | IndexStmt.deleteOld =>
    Except.ok (index.filter fun r => r.1 != old.id)

/-- Fire the triggers attached to `ev`, in order, for the row change
`old → new`. -/
def fire (ev : Event) (old new : Row) :
    List Trigger → List (Int × Str) → Except Str (List (Int × Str))
  | [], index => Except.ok index
  | t :: ts, index =>
    if t.event == ev then
      match t.body.exec old new index with
      | Except.error e => Except.error e
      | Except.ok index => fire ev old new ts index
    else fire ev old new ts index

/-- Fire the triggers attached to `ev` for each of `rows` (the row is both
`old` and `new` unless `new` says otherwise). -/
def fireEach (ev : Event) (triggers : List Trigger) (new : Row → Row) :
    List Row → List (Int × Str) → Except Str (List (Int × Str))
  | [], index => Except.ok index
  | r :: rs, index =>
    match fire ev r (new r) triggers index with
    | Except.error e => Except.error e
    | Except.ok index => fireEach ev triggers new rs index

/-- The largest rowid of a 64-bit SQLite table. -/
def maxRowid : Int := 9223372036854775807

/-- What the outside world supplies to one call of a store operation. -/
structure World where
  /-- The reading `time.Now().Unix()`. -/
  now : Int
  /-- The error with which the storage fails the `Exec`/`NamedExec` of this
  call, if it does. -/
  execError : Option Str
  /-- The error with which the storage fails the `Select` on `entry` of this
  call, if it does. -/
  selectError : Option Str
  /-- The answer of `SELECT rowid FROM entry_index WHERE entry_index MATCH ...`
  for the index contents and the query text: FTS5 matching is SQLite's. -/
  ftsMatch : List (Int × Str) → Str → Except Str (List Int)

/-- The statement `INSERT INTO entry (text, color, created, modified) VALUES (...)`: the
row gets the next `AUTOINCREMENT` id, then the insert triggers fire. -/
def DB.insertEntry (db : DB) (w : World) (text : Str) (color created modified : Int) :
    Except Str DB :=
  match w.execError with
  | some e => Except.error e
  | none =>
    let last := (db.entry.map Row.id).foldl max db.sequence
    if maxRowid ≤ last then Except.error "database or disk is full".toList
    else
      let row : Row :=
        { id := last + 1, text := text, color := color, created := created, modified := modified }
      match fire Event.afterInsert row row db.triggers db.entry_index with
      | Except.error e => Except.error e
      | Except.ok index =>
        Except.ok { db with entry := db.entry ++ [row], entry_index := index, sequence := last + 1 }

/-- The statement `UPDATE entry SET text = :text, color = :color, modified =
:modified WHERE id = :id`; it sets `text`, so the `UPDATE OF text` triggers
fire for every row it changes. -/
def DB.updateEntry (db : DB) (w : World) (id : Int) (text : Str) (color modified : Int) :
    Except Str DB :=
  match w.execError with
  | some e => Except.error e
  | none =>
    let set : Row → Row := fun r => { r with text := text, color := color, modified := modified }
    match fireEach Event.afterUpdateOfText db.triggers set
        (db.entry.filter fun r => r.id == id) db.entry_index with
    | Except.error e => Except.error e
    | Except.ok index =>
      Except.ok { db with
        entry := db.entry.map (fun r => if r.id == id then set r else r), entry_index := index }

/-- The statement `DELETE FROM entry WHERE id = $1`; the delete triggers fire for every
row it removes. -/
def DB.deleteEntry (db : DB) (w : World) (id : Int) : Except Str DB :=
  match w.execError with
  | some e => Except.error e
  | none =>
    match fireEach Event.afterDelete db.triggers (fun r => r)
        (db.entry.filter fun r => r.id == id) db.entry_index with
    | Except.error e => Except.error e
    | Except.ok index =>
      Except.ok { db with entry := db.entry.filter (fun r => r.id != id), entry_index := index }

/-- The `entry` value `sqlx` scans a row into: `Tags` is not a column. -/
def Row.scan (r : Row) : entry :=
  { ID := r.id, Text := r.text, Color := r.color, Tags := [], Created := r.created,
    Modified := r.modified }

/-- The destination slice after `Select` has appended the rows to a `nil`
slice: still `nil` when there was no row. -/
def scanAll (rows : List Row) : Option (List entry) :=
  match rows with
  | [] => none
  | _ => some (rows.map Row.scan)

/-- The query `SELECT * FROM entry [WHERE ...] ORDER BY created DESC`; SQL leaves the
order of rows with equal `created` open, here they keep their table order. -/
def DB.selectEntries (db : DB) (w : World) (cond : Row → Bool) :
    Except Str (Option (List Production.entry)) :=
  match w.selectError with
  | some e => Except.error e
  | none =>
    Except.ok (scanAll ((db.entry.filter cond).insertionSort fun a b => b.created ≤ a.created))

/-- The function `sqlx.In` for a query with one bind variable bound to a
slice: it expands the variable to the elements, and refuses an empty slice. -/
def sqlxIn (ids : List Int) : Except Str (List Int) :=
  match ids with
  | [] => Except.error "empty slice passed to 'in' query".toList
  | _ => Except.ok ids

/-! ## The store -/

/-- The Go struct `manager`. -/
structure manager where
  db : DB
  deriving DecidableEq

/-- The Go function `New`, on storage that could be opened: it runs the schema
script. The two `CREATE ... TABLE IF NOT EXISTS` keep the rows there are. -/
def New (storage : DB) : manager :=
  { db := schemaTriggers.foldl DB.createTriggerIfNotExists storage }

/-- The Go method `Current`. -/
def manager.Current (m : manager) (w : World) : Response :=
  match m.db.selectEntries w (fun _ => true) with
  | Except.error err =>
    encodeError (ErrorProgrammerFailure "failed to get entries: %s".toList [err])
  | Except.ok entries => encodeEntries entries

/-- The Go method `EntryCreate`. -/
def manager.EntryCreate (m : manager) (w : World) (text : Str) (color : Int) :
    manager × Response :=
  let now := w.now
  match m.db.insertEntry w text color now now with
  | Except.error err =>
    (m, encodeError (ErrorProgrammerFailure "failed to create entry: %s".toList [err]))
  | Except.ok db => ({ db := db }, manager.Current { db := db } w)

/-- The Go method `EntryUpdate`. -/
def manager.EntryUpdate (m : manager) (w : World) (id : Int) (text : Str) (color : Int) :
    manager × Response :=
  let now := w.now
  match m.db.updateEntry w id text color now with
  | Except.error err =>
    (m, encodeError (ErrorProgrammerFailure "failed to update entry: %s".toList [err]))
  | Except.ok db => ({ db := db }, manager.Current { db := db } w)

/-- The Go method `EntryDelete`. -/
def manager.EntryDelete (m : manager) (w : World) (id : Int) : manager × Response :=
  match m.db.deleteEntry w id with
  | Except.error err =>
    (m, encodeError (ErrorProgrammerFailure "failed to delete entry: %s".toList [err]))
  | Except.ok db => ({ db := db }, manager.Current { db := db } w)

/-- The Go method `EntrySearch`. -/
def manager.EntrySearch (m : manager) (w : World) (query : Str) : Response :=
  if query = [] then m.Current w
  else
    match w.ftsMatch m.db.entry_index query with
    | Except.error err =>
      encodeError (ErrorProgrammerFailure "failed to query entries: %s".toList [err])
    | Except.ok ids =>
      match sqlxIn ids with
      | Except.error err =>
        encodeError (ErrorProgrammerFailure "failed to get matched entries: %s".toList [err])
      | Except.ok args =>
        match m.db.selectEntries w (fun r => args.contains r.id) with
        | Except.error err =>
          encodeError (ErrorProgrammerFailure "failed to get entries: %s".toList [err])
        | Except.ok entries => encodeEntries entries

/-- A call of one of the five store operations. -/
inductive Op where
  | current
  | create (text : Str) (color : Int)
  | update (id : Int) (text : Str) (color : Int)
  | delete (id : Int)
  | search (query : Str)
  deriving DecidableEq

/-- The store after the call, and the snapshot the call returns. -/
def manager.call (m : manager) (w : World) : Op → manager × Response
  | Op.current => (m, m.Current w)
  | Op.create text color => m.EntryCreate w text color
  | Op.update id text color => m.EntryUpdate w id text color
  | Op.delete id => m.EntryDelete w id
  | Op.search query => (m, m.EntrySearch w query)

/-- The store after a sequence of calls, each in the world it runs in. -/
def manager.run (m : manager) : List (World × Op) → manager
  | [] => m
  | (w, op) :: rest => manager.run (m.call w op).1 rest

/-- A world without storage failures, at clock reading `now`, in which the
index lookup answers `ids`. -/
def World.calm (now : Int) (ids : List Int) : World :=
  { now := now, execError := none, selectError := none, ftsMatch := fun _ _ => Except.ok ids }

/-! ## The wording of the specification, for comparison -/

/-- The text before the first `sep` (the whole text when there is none). -/
def textBefore (sep : Char) (s : Str) : Str :=
  s.takeWhile (fun c => c != sep)

/-- The text after the first `sep` (empty when there is none). -/
def textAfter (sep : Char) (s : Str) : Str :=
  (s.dropWhile (fun c => c != sep)).drop 1

/-- The two-way split the specification describes: split on the first `sep`
into at most two parts; without a `sep` the left part is empty and the right
part is the whole text. -/
def splitFirst (s : Str) (sep : Char) : Str × Str :=
  if sep ∈ s then (textBefore sep s, textAfter sep s) else ([], s)

/-- The decomposition of a tag id the specification describes, by two
first-occurrence splits. -/
def firstSplitTag (id : Str) : tag :=
  { ID := id
    Namespace := (splitFirst id ':').1
    Key := (splitFirst (splitFirst id ':').2 '=').1
    Value := (splitFirst (splitFirst id ':').2 '=').2 }

/-! ## Notions the statements use -/

/-- What the loop of `encodeEntries` is to make of one entry: tags and clean
text, both from the raw text, the other fields as they are. -/
def entry.encoded (e : entry) : entry :=
  { ID := e.ID, Text := encodeEntryText e.Text, Color := e.Color,
    Tags := encodeEntryTags e.Text, Created := e.Created, Modified := e.Modified }

/-- The shape of a failure snapshot: when the error is there, the entry list
is the empty list, the code is "ProgrammerFailure" and there is a message. -/
def Response.WellShaped (r : Response) : Prop :=
  ∀ e, r.error = some e →
    r.entries = some [] ∧ e.code = "ProgrammerFailure".toList ∧ e.code ≠ [] ∧ e.message ≠ []

/-- The failure snapshot with the given message: the entry list is the empty
list, not `null`, and the error has the code "ProgrammerFailure". -/
def failureSnapshot (message : Str) : Response :=
  { entries := some []
    error := some { code := "ProgrammerFailure".toList, message := message } }

/-- The matches among the pieces, with their offsets. -/
def hitsOf : List Piece → List (Nat × Str)
  | [] => []
  | Piece.keep _ :: qs => hitsOf qs
  | Piece.hit i m :: qs => (i, m) :: hitsOf qs

/-- The text with the listed occurrences replaced by `repl`. The occurrences
come left to right as (offset, matched text) and do not overlap; `start` is
the offset of the first character of `text`. What lies before, between and
after the occurrences is copied. -/
def replaceOccurrences (repl : Str) : Nat → Str → List (Nat × Str) → Str
  | _, text, [] => text
  | start, text, (i, m) :: rest =>
    text.take (i - start) ++ repl ++
      replaceOccurrences repl (i + m.length) (text.drop (i - start + m.length)) rest

/-- The timestamps of the table are in order up to the clock reading `t`:
every row has `created ≤ modified ≤ t`. -/
def DB.Stamped (db : DB) (t : Int) : Prop :=
  ∀ r ∈ db.entry, r.created ≤ r.modified ∧ r.modified ≤ t

/-- The character before the position reached after reading `a`, `prev`
being the character before `a`. -/
def lastOr : Option Char → Str → Option Char
  | prev, [] => prev
  | _, c :: a => lastOr (some c) a

/-- The matches of a pattern lie inside the text. -/
def Pattern.Bounded (p : Pattern) : Prop :=
  ∀ prev s n, p prev s = some n → n ≤ s.length

/-! ## `strings.Split` and `encodeTag` -/

theorem Split_ne_nil (s : Str) (sep : Char) : Split s sep ≠ [] := by
  cases s with
  | nil => simp [Split]
  | cons c rest =>
    unfold Split
    split
    · simp
    · split <;> simp

theorem Split_of_not_mem (s : Str) (sep : Char) (h : sep ∉ s) : Split s sep = [s] := by
  induction s with
  | nil => simp [Split]
  | cons c rest ih =>
    have hc : c ≠ sep := fun e => h (by simp [e])
    have hr : sep ∉ rest := fun e => h (by simp [e])
    simp [Split, hc, ih hr]

theorem Split_of_count_one (s : Str) (sep : Char) (h : s.count sep = 1) :
    Split s sep = [textBefore sep s, textAfter sep s] := by
  induction s with
  | nil => simp at h
  | cons c rest ih =>
    by_cases hc : c = sep
    · subst hc
      have hr : c ∉ rest := by
        rw [← List.count_eq_zero]
        simpa using h
      simp [Split, Split_of_not_mem rest c hr, textBefore, textAfter]
    · have hr : rest.count sep = 1 := by
        simpa [List.count_cons, hc] using h
      simp [Split, hc, ih hr, textBefore, textAfter, List.takeWhile_cons, List.dropWhile_cons]

theorem Split_length (s : Str) (sep : Char) : (Split s sep).length = s.count sep + 1 := by
  induction s with
  | nil => simp [Split]
  | cons c rest ih =>
    by_cases hc : c = sep
    · subst hc
      simp [Split, ih]
    · have hne := Split_ne_nil rest sep
      cases hs : Split rest sep with
      | nil => exact absurd hs hne
      | cons part parts =>
        rw [hs] at ih
        simp [Split, hc, hs, List.count_cons] at ih ⊢
        omega

theorem splitter_eq (str : Str) (char : Char) :
    splitter str char =
      if str.count char = 1 then (textBefore char str, textAfter char str) else ([], str) := by
  by_cases h : str.count char = 1
  · simp [splitter, Split_of_count_one str char h, h]
  · have hl := Split_length str char
    simp only [h, if_false]
    unfold splitter
    split
    · rename_i a b hab
      rw [hab] at hl
      simp at hl
      omega
    · rfl

theorem splitter_eq_splitFirst (s : Str) (sep : Char) (h : s.count sep ≤ 1) :
    splitter s sep = splitFirst s sep := by
  rw [splitter_eq]
  unfold splitFirst
  by_cases hm : sep ∈ s
  · have hpos : 0 < s.count sep := List.count_pos_iff.mpr hm
    have h1 : s.count sep = 1 := by omega
    simp [hm, h1]
  · have h0 : s.count sep = 0 := List.count_eq_zero.mpr hm
    simp [hm, h0]

theorem encodeTag_hash_cons (id : Str) :
    encodeTag ('#' :: id) =
      { ID := id
        Namespace := (splitter id ':').1
        Key := (splitter (splitter id ':').2 '=').1
        Value := (splitter (splitter id ':').2 '=').2 } := by
  simp [encodeTag, TrimPrefixHash]

/-- C1 (as amended): for every tag id, `encodeTag` honours a delimiter only
when it occurs exactly once. If id contains exactly one ':', namespace is the
text before it and the remainder the text after it; otherwise (no ':' or more
than one) namespace is empty and the remainder is all of id. If the remainder
contains exactly one '=', key is the text before it and value the text after
it; otherwise key is empty and value is the whole remainder. So "a:b:c" gives
an empty namespace and the value "a:b:c", and "k=v=w" an empty key and the
value "k=v=w". -/
theorem encodeTag_splits_on_lone_delimiters :
    (∀ id : Str,
      encodeTag ('#' :: id) =
        { ID := id
          Namespace := if id.count ':' = 1 then textBefore ':' id else []
          Key :=
            if (if id.count ':' = 1 then textAfter ':' id else id).count '=' = 1 then
              textBefore '=' (if id.count ':' = 1 then textAfter ':' id else id)
            else []
          Value :=
            if (if id.count ':' = 1 then textAfter ':' id else id).count '=' = 1 then
              textAfter '=' (if id.count ':' = 1 then textAfter ':' id else id)
            else (if id.count ':' = 1 then textAfter ':' id else id) }) ∧
    encodeTag "#a:b:c".toList = ⟨"a:b:c".toList, [], [], "a:b:c".toList⟩ ∧
    encodeTag "#k=v=w".toList = ⟨"k=v=w".toList, [], [], "k=v=w".toList⟩ := by
  refine ⟨fun id => ?_, by decide, by decide⟩
  rw [encodeTag_hash_cons, splitter_eq, splitter_eq]
  by_cases h : id.count ':' = 1
  · by_cases h2 : (textAfter ':' id).count '=' = 1 <;> simp [h, h2]
  · by_cases h2 : id.count '=' = 1 <;> simp [h, h2]

/-- C1 (counterexample): on "a:b:c" and on "k=v=w" the first-occurrence split
of the claim gives namespace "a", value "b:c" and key "k", value "v=w", while
`encodeTag` gives an empty namespace and key and the whole id as value. -/
theorem encodeTag_ignores_repeated_delimiters :
    (firstSplitTag "a:b:c".toList).Namespace = "a".toList ∧
    (firstSplitTag "a:b:c".toList).Value = "b:c".toList ∧
    (encodeTag "#a:b:c".toList).Namespace = [] ∧
    (encodeTag "#a:b:c".toList).Value = "a:b:c".toList ∧
    (firstSplitTag "k=v=w".toList).Key = "k".toList ∧
    (firstSplitTag "k=v=w".toList).Value = "v=w".toList ∧
    (encodeTag "#k=v=w".toList).Key = [] ∧
    (encodeTag "#k=v=w".toList).Value = "k=v=w".toList := by
  decide

/-- C7: for every tag id with at most one ':' whose remainder (the part after
the ':', or the whole id when there is none) has at most one '=', `encodeTag`
returns the decomposition the specification describes: id unchanged, namespace
the text before the ':' (empty without ':'), key the text of the remainder
before the '=' (empty without '='), value the text after the '=' (the whole
remainder without '='). -/
theorem encodeTag_eq_firstSplitTag (id : Str) (h1 : id.count ':' ≤ 1)
    (h2 : (splitFirst id ':').2.count '=' ≤ 1) :
    encodeTag ('#' :: id) = firstSplitTag id := by
  rw [encodeTag_hash_cons, splitter_eq_splitFirst id ':' h1,
    splitter_eq_splitFirst _ '=' h2]
  rfl

/-- C7 (witness): the four tags of the specification, "#foo", "#ns:key",
"#ns:key=val" and "#key=val". -/
theorem encodeTag_eq_firstSplitTag_witness :
    encodeTag "#foo".toList = ⟨"foo".toList, [], [], "foo".toList⟩ ∧
    encodeTag "#ns:key".toList = ⟨"ns:key".toList, "ns".toList, [], "key".toList⟩ ∧
    encodeTag "#ns:key=val".toList =
      ⟨"ns:key=val".toList, "ns".toList, "key".toList, "val".toList⟩ ∧
    encodeTag "#key=val".toList = ⟨"key=val".toList, [], "key".toList, "val".toList⟩ :=
  ⟨(encodeTag_eq_firstSplitTag "foo".toList (by decide) (by decide)).trans (by decide),
   (encodeTag_eq_firstSplitTag "ns:key".toList (by decide) (by decide)).trans (by decide),
   (encodeTag_eq_firstSplitTag "ns:key=val".toList (by decide) (by decide)).trans (by decide),
   (encodeTag_eq_firstSplitTag "key=val".toList (by decide) (by decide)).trans (by decide)⟩

/-! ## The snapshot encoder -/

theorem encodeEntriesBody_eq_modify (es : List entry) (i : Nat) :
    encodeEntriesBody es i = es.modify entry.encoded i := by
  induction es generalizing i with
  | nil => simp [encodeEntriesBody]
  | cons a rest ih =>
    cases i with
    | zero => simp [encodeEntriesBody, entry.encoded]
    | succ k =>
      have h := ih k
      unfold encodeEntriesBody at h ⊢
      simp only [List.getElem?_cons_succ, List.modify_succ_cons]
      cases hk : rest[k]? with
      | none => simpa [hk] using h
      | some e => simpa [hk] using h

theorem foldl_modify_range (f : entry → entry) (es : List entry) (k : Nat)
    (hk : k ≤ es.length) :
    (List.range k).foldl (fun acc i => acc.modify f i) es =
      (es.take k).map f ++ es.drop k := by
  induction k with
  | zero => simp
  | succ k ih =>
    have hlt : k < es.length := hk
    rw [List.range_succ, List.foldl_append, ih (Nat.le_of_lt hlt)]
    have hlen : ((es.take k).map f).length = k := by simp [Nat.le_of_lt hlt]
    simp only [List.foldl_cons, List.foldl_nil]
    rw [List.modify_eq_take_drop]
    rw [List.take_append_eq_append_take, List.drop_append_eq_append_drop]
    simp only [hlen, Nat.sub_self, List.take_zero, List.drop_zero, List.append_nil]
    rw [List.take_of_length_le (by simp [hlen]), List.drop_of_length_le (by simp [hlen])]
    rw [List.drop_eq_getElem_cons hlt, List.take_succ, List.getElem?_eq_getElem hlt]
    simp only [List.nil_append, List.modifyHead_cons, List.map_append, Option.toList,
      List.map_cons, List.map_nil, List.append_assoc, List.singleton_append]

theorem encodeEntries_some (es : List entry) :
    encodeEntries (some es) = { entries := some (es.map entry.encoded), error := none } := by
  have hb : encodeEntriesBody = fun acc i => List.modify entry.encoded i acc := by
    funext acc i
    exact encodeEntriesBody_eq_modify acc i
  simp only [encodeEntries, encodeResponse, hb]
  rw [foldl_modify_range entry.encoded es es.length (Nat.le_refl _)]
  simp

theorem encodeEntries_error (es : Option (List entry)) : (encodeEntries es).error = none := by
  simp [encodeEntries, encodeResponse]

/-- C6: for every list of stored entries `encodeEntries` gives a success
snapshot (no error) with as many entries in the same order, every output entry
keeping id, color, created and modified, its text being `encodeEntryText` of
the raw text and its tags `encodeEntryTags` of the raw text; the `nil` list
gives the empty list; and the entry "Buy milk #shopping:grocery" with color 1
comes out with text "Buy milk", color 1 and the one tag
{id "shopping:grocery", namespace "shopping", key "", value "grocery"}. -/
theorem encodeEntries_spec :
    (∀ es : List entry,
      encodeEntries (some es) =
        { entries := some (es.map fun e =>
            { ID := e.ID, Text := encodeEntryText e.Text, Color := e.Color,
              Tags := encodeEntryTags e.Text, Created := e.Created, Modified := e.Modified })
          error := none }) ∧
    encodeEntries none = { entries := some [], error := none } ∧
    encodeEntries (some [⟨1, "Buy milk #shopping:grocery".toList, 1, [], 7, 7⟩]) =
      { entries := some [⟨1, "Buy milk".toList, 1,
          [⟨"shopping:grocery".toList, "shopping".toList, [], "grocery".toList⟩], 7, 7⟩]
        error := none } := by
  refine ⟨fun es => ?_, by decide, by decide⟩
  exact encodeEntries_some es

/-! ## Failure snapshots -/

theorem encodeError_programmerFailure (message err : Str) :
    encodeError (ErrorProgrammerFailure message [err]) =
      { entries := some []
        error := some { code := "ProgrammerFailure".toList, message := Sprintf message [err] } } := by
  rfl

theorem Sprintf_cons_ne_nil (c : Char) (rest : Str) (args : List Str) (h : c ≠ '%') :
    Sprintf (c :: rest) args ≠ [] := by
  unfold Sprintf
  split <;> simp_all

theorem wellShaped_encodeEntries (es : Option (List entry)) :
    (encodeEntries es).WellShaped := by
  intro e h
  simp [encodeEntries_error] at h

theorem wellShaped_encodeError (c : Char) (rest err : Str) (h : c ≠ '%') :
    (encodeError (ErrorProgrammerFailure (c :: rest) [err])).WellShaped := by
  intro e he
  rw [encodeError_programmerFailure] at he
  simp only [Option.some.injEq] at he
  subst he
  refine ⟨rfl, rfl, ?_, Sprintf_cons_ne_nil c rest [err] h⟩
  show "ProgrammerFailure".toList ≠ []
  decide

theorem wellShaped_Current (m : manager) (w : World) : (m.Current w).WellShaped := by
  unfold manager.Current
  split
  · exact wellShaped_encodeError 'f' _ _ (by decide)
  · exact wellShaped_encodeEntries _

theorem wellShaped_EntryCreate (m : manager) (w : World) (text : Str) (color : Int) :
    (m.EntryCreate w text color).2.WellShaped := by
  unfold manager.EntryCreate
  dsimp only
  split
  · exact wellShaped_encodeError 'f' _ _ (by decide)
  · exact wellShaped_Current _ w

theorem wellShaped_EntryUpdate (m : manager) (w : World) (id : Int) (text : Str) (color : Int) :
    (m.EntryUpdate w id text color).2.WellShaped := by
  unfold manager.EntryUpdate
  dsimp only
  split
  · exact wellShaped_encodeError 'f' _ _ (by decide)
  · exact wellShaped_Current _ w

theorem wellShaped_EntryDelete (m : manager) (w : World) (id : Int) :
    (m.EntryDelete w id).2.WellShaped := by
  unfold manager.EntryDelete
  split
  · exact wellShaped_encodeError 'f' _ _ (by decide)
  · exact wellShaped_Current _ w

theorem wellShaped_EntrySearch (m : manager) (w : World) (query : Str) :
    (m.EntrySearch w query).WellShaped := by
  unfold manager.EntrySearch
  split
  · exact wellShaped_Current _ w
  · split
    · exact wellShaped_encodeError 'f' _ _ (by decide)
    · split
      · exact wellShaped_encodeError 'f' _ _ (by decide)
      · split
        · exact wellShaped_encodeError 'f' _ _ (by decide)
        · exact wellShaped_encodeEntries _

theorem Sprintf_verb_s (lit a : Str) (h : '%' ∉ lit) :
    Sprintf (lit ++ ['%', 's']) [a] = lit ++ a := by
  induction lit with
  | nil => simp [Sprintf]
  | cons c rest ih =>
    have hc : c ≠ '%' := fun e => h (by simp [e])
    have hr : '%' ∉ rest := fun e => h (List.mem_cons_of_mem _ e)
    have hstep : Sprintf (c :: (rest ++ ['%', 's'])) [a] = c :: Sprintf (rest ++ ['%', 's']) [a] := by
      conv_lhs => unfold Sprintf
      split <;> simp_all
    rw [List.cons_append, hstep, ih hr]
    rfl

theorem encodeError_failed (lit err : Str) (h : '%' ∉ lit) :
    encodeError (ErrorProgrammerFailure (lit ++ ['%', 's']) [err]) =
      failureSnapshot (lit ++ err) := by
  rw [encodeError_programmerFailure, Sprintf_verb_s lit err h]
  rfl

theorem Current_of_select_error (m : manager) (w : World) (err : Str)
    (h : m.db.selectEntries w (fun _ => true) = Except.error err) :
    m.Current w = failureSnapshot ("failed to get entries: ".toList ++ err) := by
  unfold manager.Current
  rw [h]
  exact encodeError_failed "failed to get entries: ".toList err (by decide)

/-- C9: a store operation (Current, EntryCreate, EntryUpdate, EntryDelete,
EntrySearch) whose storage call fails returns the failure snapshot: the entry
list is the empty list (present, not null), the error is populated with the
code "ProgrammerFailure" and the message is the name of the failed step
followed by the text of the underlying error, hence non-empty, whatever that
text is; a failed write leaves the store as it was. Conversely every snapshot
an operation returns with an error has this shape. -/
theorem failure_snapshot_shape :
    (∀ (m : manager) (w : World) (op : Op) (e : WireError),
      (m.call w op).2.error = some e →
        (m.call w op).2.entries = some [] ∧ e.code = "ProgrammerFailure".toList ∧
          e.code ≠ [] ∧ e.message ≠ []) ∧
    (∀ (m : manager) (w : World) (err : Str),
      m.db.selectEntries w (fun _ => true) = Except.error err →
        m.Current w = failureSnapshot ("failed to get entries: ".toList ++ err)) ∧
    (∀ (m : manager) (w : World) (text : Str) (color : Int) (err : Str),
      m.db.insertEntry w text color w.now w.now = Except.error err →
        m.EntryCreate w text color =
          (m, failureSnapshot ("failed to create entry: ".toList ++ err))) ∧
    (∀ (m : manager) (w : World) (id : Int) (text : Str) (color : Int) (err : Str),
      m.db.updateEntry w id text color w.now = Except.error err →
        m.EntryUpdate w id text color =
          (m, failureSnapshot ("failed to update entry: ".toList ++ err))) ∧
    (∀ (m : manager) (w : World) (id : Int) (err : Str),
      m.db.deleteEntry w id = Except.error err →
        m.EntryDelete w id = (m, failureSnapshot ("failed to delete entry: ".toList ++ err))) ∧
    (∀ (m : manager) (w : World) (text : Str) (color : Int) (db : DB) (err : Str),
      m.db.insertEntry w text color w.now w.now = Except.ok db →
      db.selectEntries w (fun _ => true) = Except.error err →
        m.EntryCreate w text color =
          ({ db := db }, failureSnapshot ("failed to get entries: ".toList ++ err))) ∧
    (∀ (m : manager) (w : World) (id : Int) (text : Str) (color : Int) (db : DB) (err : Str),
      m.db.updateEntry w id text color w.now = Except.ok db →
      db.selectEntries w (fun _ => true) = Except.error err →
        m.EntryUpdate w id text color =
          ({ db := db }, failureSnapshot ("failed to get entries: ".toList ++ err))) ∧
    (∀ (m : manager) (w : World) (id : Int) (db : DB) (err : Str),
      m.db.deleteEntry w id = Except.ok db →
      db.selectEntries w (fun _ => true) = Except.error err →
        m.EntryDelete w id =
          ({ db := db }, failureSnapshot ("failed to get entries: ".toList ++ err))) ∧
    (∀ (m : manager) (w : World) (query err : Str), query ≠ [] →
      w.ftsMatch m.db.entry_index query = Except.error err →
        m.EntrySearch w query = failureSnapshot ("failed to query entries: ".toList ++ err)) ∧
    (∀ (m : manager) (w : World) (query : Str) (ids : List Int) (err : Str), query ≠ [] →
      w.ftsMatch m.db.entry_index query = Except.ok ids →
      sqlxIn ids = Except.error err →
        m.EntrySearch w query =
          failureSnapshot ("failed to get matched entries: ".toList ++ err)) ∧
    (∀ (m : manager) (w : World) (query : Str) (ids args : List Int) (err : Str), query ≠ [] →
      w.ftsMatch m.db.entry_index query = Except.ok ids →
      sqlxIn ids = Except.ok args →
      m.db.selectEntries w (fun r => args.contains r.id) = Except.error err →
        m.EntrySearch w query = failureSnapshot ("failed to get entries: ".toList ++ err)) ∧
    (∀ (db : DB) (w : World) (cond : Row → Bool) (err : Str), w.selectError = some err →
      db.selectEntries w cond = Except.error err) ∧
    (∀ (db : DB) (w : World) (id : Int) (text : Str) (color a b : Int) (err : Str),
      w.execError = some err →
        db.insertEntry w text color a b = Except.error err ∧
        db.updateEntry w id text color a = Except.error err ∧
        db.deleteEntry w id = Except.error err) := by
  refine ⟨?_, Current_of_select_error, ?_, ?_, ?_, ?_, ?_, ?_, ?_, ?_, ?_, ?_, ?_⟩
  · intro m w op e h
    have hs : (m.call w op).2.WellShaped := by
      cases op with
      | current => exact wellShaped_Current m w
      | create text color => exact wellShaped_EntryCreate m w text color
      | update id text color => exact wellShaped_EntryUpdate m w id text color
      | delete id => exact wellShaped_EntryDelete m w id
      | search query => exact wellShaped_EntrySearch m w query
    exact hs e h
  · intro m w text color err h
    unfold manager.EntryCreate
    dsimp only
    rw [h]
    exact congrArg (Prod.mk m) (encodeError_failed "failed to create entry: ".toList err (by decide))
  · intro m w id text color err h
    unfold manager.EntryUpdate
    dsimp only
    rw [h]
    exact congrArg (Prod.mk m) (encodeError_failed "failed to update entry: ".toList err (by decide))
  · intro m w id err h
    unfold manager.EntryDelete
    rw [h]
    exact congrArg (Prod.mk m) (encodeError_failed "failed to delete entry: ".toList err (by decide))
  · intro m w text color db err h hsel
    unfold manager.EntryCreate
    dsimp only
    rw [h]
    exact congrArg (Prod.mk _) (Current_of_select_error { db := db } w err hsel)
  · intro m w id text color db err h hsel
    unfold manager.EntryUpdate
    dsimp only
    rw [h]
    exact congrArg (Prod.mk _) (Current_of_select_error { db := db } w err hsel)
  · intro m w id db err h hsel
    unfold manager.EntryDelete
    rw [h]
    exact congrArg (Prod.mk _) (Current_of_select_error { db := db } w err hsel)
  · intro m w query err hq h
    unfold manager.EntrySearch
    rw [if_neg hq, h]
    exact encodeError_failed "failed to query entries: ".toList err (by decide)
  · intro m w query ids err hq h hin
    unfold manager.EntrySearch
    rw [if_neg hq, h]
    dsimp only
    rw [hin]
    exact encodeError_failed "failed to get matched entries: ".toList err (by decide)
  · intro m w query ids args err hq h hin hsel
    unfold manager.EntrySearch
    rw [if_neg hq, h]
    dsimp only
    rw [hin]
    dsimp only
    rw [hsel]
    exact encodeError_failed "failed to get entries: ".toList err (by decide)
  · intro db w cond err h
    unfold DB.selectEntries
    rw [h]
  · intro db w id text color a b err h
    unfold DB.insertEntry DB.updateEntry DB.deleteEntry
    rw [h]
    exact ⟨rfl, rfl, rfl⟩

/-- C9 (witness): a delete that the storage fails with "disk I/O error", and
a listing that it fails with an empty error text. -/
theorem failure_snapshot_shape_witness :
    (New DB.fresh).EntryDelete ⟨3, some "disk I/O error".toList, none, fun _ _ => Except.ok []⟩ 1 =
        (New DB.fresh,
          { entries := some []
            error := some
              { code := "ProgrammerFailure".toList
                message := "failed to delete entry: disk I/O error".toList } }) ∧
      (New DB.fresh).Current ⟨3, none, some [], fun _ _ => Except.ok []⟩ =
        { entries := some []
          error := some
            { code := "ProgrammerFailure".toList
              message := "failed to get entries: ".toList } } :=
  ⟨(failure_snapshot_shape.2.2.2.2.1 (New DB.fresh)
      ⟨3, some "disk I/O error".toList, none, fun _ _ => Except.ok []⟩ 1
      "disk I/O error".toList rfl).trans (by decide),
   (failure_snapshot_shape.2.1 (New DB.fresh) ⟨3, none, some [], fun _ _ => Except.ok []⟩ []
      rfl).trans (by decide)⟩

/-! ## The search with no match -/

/-- C3 (the code at the failing input): for every store and every non-empty
query whose index lookup returns no identifier, `EntrySearch` returns a failure
snapshot: `sqlx.In` refuses the empty slice, so the entry list is empty and the
error is "ProgrammerFailure" with the message "failed to get matched entries:
empty slice passed to 'in' query". -/
theorem EntrySearch_no_match_is_failure (m : manager) (w : World) (query : Str)
    (hq : query ≠ []) (hm : w.ftsMatch m.db.entry_index query = Except.ok []) :
    m.EntrySearch w query =
      { entries := some []
        error := some
          { code := "ProgrammerFailure".toList
            message := "failed to get matched entries: empty slice passed to 'in' query".toList } } := by
  unfold manager.EntrySearch
  rw [if_neg hq, hm]
  rfl

/-- C3 (witness): the search for "milk" on the store just created. -/
theorem EntrySearch_no_match_is_failure_witness :
    ((New DB.fresh).EntrySearch (World.calm 10 []) "milk".toList).error ≠ none := by
  rw [EntrySearch_no_match_is_failure (New DB.fresh) (World.calm 10 []) "milk".toList
    (by decide) rfl]
  decide

/-! ## The index after a delete -/

/-- C4 (the code at the failing input): the third `CREATE TRIGGER IF NOT
EXISTS` of `New` carries the name of the first, so no trigger is attached to
the delete; after `EntryCreate("x", 0)` and `EntryDelete(1)` on fresh storage
the entry table is empty and the index still holds the row of identifier 1. -/
theorem index_keeps_deleted_row :
    (New DB.fresh).db.triggers.map Trigger.event =
        [Event.afterInsert, Event.afterUpdateOfText] ∧
      (((New DB.fresh).run
          [(World.calm 10 [], Op.create "x".toList 0)]).db.entry.map Row.id = [1]) ∧
      (((New DB.fresh).run
          [(World.calm 10 [], Op.create "x".toList 0),
           (World.calm 11 [], Op.delete 1)]).db.entry = []) ∧
      (((New DB.fresh).run
          [(World.calm 10 [], Op.create "x".toList 0),
           (World.calm 11 [], Op.delete 1)]).db.entry_index = [(1, "x".toList)]) := by
  decide

/-! ## The timestamps -/

theorem stamped_insertEntry (db db' : DB) (w : World) (text : Str) (color t : Int)
    (hinv : db.Stamped t) (ht : t ≤ w.now)
    (h : db.insertEntry w text color w.now w.now = Except.ok db') : db'.Stamped w.now := by
  unfold DB.insertEntry at h
  split at h
  · cases h
  · dsimp only at h
    split at h
    · cases h
    · split at h
      · cases h
      · cases h
        intro r hr
        simp only [List.mem_append, List.mem_singleton] at hr
        rcases hr with hr | hr
        · exact ⟨(hinv r hr).1, le_trans (hinv r hr).2 ht⟩
        · subst hr
          exact ⟨le_refl _, le_refl _⟩

theorem stamped_updateEntry (db db' : DB) (w : World) (id : Int) (text : Str) (color t : Int)
    (hinv : db.Stamped t) (ht : t ≤ w.now)
    (h : db.updateEntry w id text color w.now = Except.ok db') : db'.Stamped w.now := by
  unfold DB.updateEntry at h
  split at h
  · cases h
  · dsimp only at h
    split at h
    · cases h
    · cases h
      intro r hr
      simp only [List.mem_map] at hr
      obtain ⟨r0, hr0, rfl⟩ := hr
      have h0 := hinv r0 hr0
      split
      · exact ⟨le_trans h0.1 (le_trans h0.2 ht), le_refl _⟩
      · exact ⟨h0.1, le_trans h0.2 ht⟩

theorem stamped_deleteEntry (db db' : DB) (w : World) (id : Int) (t : Int)
    (hinv : db.Stamped t) (ht : t ≤ w.now)
    (h : db.deleteEntry w id = Except.ok db') : db'.Stamped w.now := by
  unfold DB.deleteEntry at h
  split at h
  · cases h
  · split at h
    · cases h
    · cases h
      intro r hr
      have h0 := hinv r (List.mem_of_mem_filter hr)
      exact ⟨h0.1, le_trans h0.2 ht⟩

theorem stamped_mono (db : DB) (t u : Int) (hinv : db.Stamped t) (ht : t ≤ u) :
    db.Stamped u :=
  fun r hr => ⟨(hinv r hr).1, le_trans (hinv r hr).2 ht⟩

theorem stamped_call (m : manager) (w : World) (op : Op) (t : Int)
    (hinv : m.db.Stamped t) (ht : t ≤ w.now) : (m.call w op).1.db.Stamped w.now := by
  cases op with
  | current => exact stamped_mono _ _ _ hinv ht
  | search query => exact stamped_mono _ _ _ hinv ht
  | create text color =>
    simp only [manager.call, manager.EntryCreate]
    split
    · exact stamped_mono _ _ _ hinv ht
    · rename_i db' hdb
      exact stamped_insertEntry _ _ _ _ _ _ hinv ht hdb
  | update id text color =>
    simp only [manager.call, manager.EntryUpdate]
    split
    · exact stamped_mono _ _ _ hinv ht
    · rename_i db' hdb
      exact stamped_updateEntry _ _ _ _ _ _ _ hinv ht hdb
  | delete id =>
    simp only [manager.call, manager.EntryDelete]
    split
    · exact stamped_mono _ _ _ hinv ht
    · rename_i db' hdb
      exact stamped_deleteEntry _ _ _ _ _ hinv ht hdb

theorem stamped_run (runs : List (World × Op)) (m : manager) (t : Int)
    (hinv : m.db.Stamped t)
    (hclock : List.Chain (fun a b => a ≤ b) t (runs.map fun c => c.1.now)) :
    ∃ u, (m.run runs).db.Stamped u := by
  induction runs generalizing m t with
  | nil => exact ⟨t, hinv⟩
  | cons c rest ih =>
    obtain ⟨w, op⟩ := c
    simp only [List.map_cons, List.chain_cons] at hclock
    exact ih (m.call w op).1 w.now (stamped_call m w op t hinv hclock.1) hclock.2

theorem EntryCreate_entry (m : manager) (w : World) (text : Str) (color : Int) :
    (m.EntryCreate w text color).1.db.entry = m.db.entry ∨
      ∃ id, (m.EntryCreate w text color).1.db.entry =
        m.db.entry ++ [(⟨id, text, color, w.now, w.now⟩ : Row)] := by
  unfold manager.EntryCreate
  dsimp only
  split
  · exact Or.inl rfl
  · rename_i db hdb
    right
    unfold DB.insertEntry at hdb
    split at hdb
    · cases hdb
    · dsimp only at hdb
      split at hdb
      · cases hdb
      · split at hdb
        · cases hdb
        · cases hdb
          exact ⟨_, rfl⟩

theorem EntryUpdate_entry (m : manager) (w : World) (id : Int) (text : Str) (color : Int) :
    (m.EntryUpdate w id text color).1.db.entry = m.db.entry ∨
      (m.EntryUpdate w id text color).1.db.entry =
        m.db.entry.map fun r =>
          if r.id == id then
            (⟨r.id, text, color, r.created, w.now⟩ : Row)
          else r := by
  unfold manager.EntryUpdate
  dsimp only
  split
  · exact Or.inl rfl
  · rename_i db hdb
    right
    unfold DB.updateEntry at hdb
    split at hdb
    · cases hdb
    · dsimp only at hdb
      split at hdb
      · cases hdb
      · cases hdb
        rfl

/-- C10 (as amended): for every sequence of store operations on a store
created on fresh storage, each stamping the clock reading it takes when it
runs, provided the clock readings do not decrease from one operation to the
next, every stored entry satisfies created ≤ modified. `EntryCreate` leaves
the table as it is (on failure) or appends one row with created = modified =
now; `EntryUpdate` leaves the table as it is (on failure) or sets text, color
and modified = now in the rows of that id, keeping their created. -/
theorem created_le_modified (runs : List (World × Op))
    (hclock : List.Chain' (fun a b => a ≤ b) (runs.map fun c => c.1.now)) :
    (∀ r ∈ ((New DB.fresh).run runs).db.entry, r.created ≤ r.modified) ∧
    (∀ (m : manager) (w : World) (text : Str) (color : Int),
      (m.EntryCreate w text color).1.db.entry = m.db.entry ∨
        ∃ id, (m.EntryCreate w text color).1.db.entry =
          m.db.entry ++ [(⟨id, text, color, w.now, w.now⟩ : Row)]) ∧
    (∀ (m : manager) (w : World) (id : Int) (text : Str) (color : Int),
      (m.EntryUpdate w id text color).1.db.entry = m.db.entry ∨
        (m.EntryUpdate w id text color).1.db.entry =
          m.db.entry.map fun r =>
            if r.id == id then
              (⟨r.id, text, color, r.created, w.now⟩ : Row)
            else r) := by
  refine ⟨?_, EntryCreate_entry, EntryUpdate_entry⟩
  have hfresh : ∀ t, (New DB.fresh).db.Stamped t := by
    intro t r hr
    have : (New DB.fresh).db.entry = [] := by decide
    rw [this] at hr
    cases hr
  cases runs with
  | nil =>
    intro r hr
    exact ((hfresh 0) r hr).1
  | cons c rest =>
    simp only [List.map_cons, List.Chain'] at hclock
    have hch : List.Chain (fun a b => a ≤ b) c.1.now ((c :: rest).map fun c => c.1.now) := by
      simp only [List.map_cons, List.chain_cons]
      exact ⟨le_refl _, hclock⟩
    obtain ⟨u, hu⟩ := stamped_run (c :: rest) (New DB.fresh) c.1.now (hfresh _) hch
    intro r hr
    exact (hu r hr).1

/-- C10 (witness): a create at reading 10 and an update at reading 12. -/
theorem created_le_modified_witness :
    (((New DB.fresh).run
        [(World.calm 10 [], Op.create "x".toList 0),
         (World.calm 12 [], Op.update 1 "y".toList 2)]).db.entry.all
      fun r => decide (r.created ≤ r.modified)) = true :=
  List.all_eq_true.mpr fun r hr =>
    decide_eq_true
      ((created_le_modified
        [(World.calm 10 [], Op.create "x".toList 0),
         (World.calm 12 [], Op.update 1 "y".toList 2)]
        (by simp [World.calm])).1 r hr)

/-- C10 (counterexample): a create at clock reading 10 followed by an update
of the same entry at clock reading 5 leaves the entry with created = 10 and
modified = 5. -/
theorem modified_before_created :
    ((New DB.fresh).run
        [(World.calm 10 [], Op.create "x".toList 0),
         (World.calm 5 [], Op.update 1 "y".toList 2)]).db.entry =
      [⟨1, "y".toList, 2, 10, 5⟩] ∧
    ¬ ∀ r ∈ ((New DB.fresh).run
        [(World.calm 10 [], Op.create "x".toList 0),
         (World.calm 5 [], Op.update 1 "y".toList 2)]).db.entry, r.created ≤ r.modified := by
  decide

/-! ## The matching loop -/

theorem lastOr_append (prev : Option Char) (a b : Str) :
    lastOr prev (a ++ b) = lastOr (lastOr prev a) b := by
  induction a generalizing prev with
  | nil => rfl
  | cons c a ih => exact ih (some c)

theorem lastOr_none_eq_getLast? (a : Str) : lastOr none a = a.getLast? := by
  have h : ∀ (a : Str) (prev : Option Char), lastOr prev a = a.getLast?.or prev := by
    intro a
    induction a with
    | nil => intro prev; rfl
    | cons c a ih =>
      intro prev
      show lastOr (some c) a = _
      rw [ih (some c)]
      cases a with
      | nil => rfl
      | cons d a =>
        rw [List.getLast?_cons_cons]
        cases hl : (d :: a).getLast? with
        | none => simp at hl
        | some x => rfl
  rw [h a none]
  cases a.getLast? <;> rfl

theorem scan_skip (p : Pattern) (a b : Str) (pos : Nat) (prev : Option Char) :
    scan p a.length pos prev (a ++ b) = scan p 0 (pos + a.length) (lastOr prev a) b := by
  induction a generalizing pos prev with
  | nil => rfl
  | cons c a ih =>
    show scan p a.length (pos + 1) (some c) (a ++ b) = _
    rw [ih (pos + 1) (some c)]
    simp only [List.length_cons, lastOr]
    congr 1
    omega

theorem scan_zero_hit (p : Pattern) (pos : Nat) (prev : Option Char) (c : Char) (rest : Str)
    (n : Nat) (h : p prev (c :: rest) = some (n + 1)) (hn : n ≤ rest.length) :
    scan p 0 pos prev (c :: rest) =
      Piece.hit pos (c :: rest.take n) ::
        scan p 0 (pos + (n + 1)) (lastOr (some c) (rest.take n)) (rest.drop n) := by
  have hlen : (rest.take n).length = n := by simp [hn]
  have hs := scan_skip p (rest.take n) (rest.drop n) (pos + 1) (some c)
  rw [List.take_append_drop, hlen] at hs
  simp only [scan, h, List.take_succ_cons]
  rw [hs]
  congr 2
  omega

theorem scan_zero_keep (p : Pattern) (pos : Nat) (prev : Option Char) (c : Char) (rest : Str)
    (h : ∀ n, p prev (c :: rest) ≠ some (n + 1)) :
    scan p 0 pos prev (c :: rest) = Piece.keep c :: scan p 0 (pos + 1) (some c) rest := by
  conv_lhs => unfold scan
  split
  · rename_i n hn
    exact absurd hn (h n)
  · rfl

theorem mem_findAllIndexed (p : Pattern) (text : Str) (i : Nat) (tok : Str) :
    (i, tok) ∈ findAllIndexed p text ↔ Piece.hit i tok ∈ pieces p text := by
  unfold findAllIndexed
  rw [List.mem_filterMap]
  constructor
  · rintro ⟨q, hq, hf⟩
    cases q with
    | keep c => simp at hf
    | hit j m =>
      simp only [Option.some.injEq, Prod.mk.injEq] at hf
      obtain ⟨rfl, rfl⟩ := hf
      exact hq
  · intro h
    exact ⟨Piece.hit i tok, h, rfl⟩

/-! ## The pattern of the tags -/

theorem isTagChar_hash : isTagChar '#' = false := by decide

theorem isTagChar_of_isWord (c : Char) (h : isWord c = true) : isTagChar c = true := by
  simp [isTagChar, h]

theorem reHashTag_eq_some (prev : Option Char) (s : Str) (n : Nat) :
    reHashTag prev s = some n ↔
      ∃ w c rest, s = '#' :: w :: c :: rest ∧ isWordAt prev = false ∧ isWord w = true ∧
        isTagChar c = true ∧ n = 3 + (rest.takeWhile isTagChar).length := by
  have hh : isWordAt (some '#') = false := by decide
  unfold reHashTag
  split
  · rename_i h w c rest
    constructor
    · intro hif
      split at hif
      · rename_i hc
        simp only [Bool.and_eq_true, beq_iff_eq] at hc
        obtain ⟨⟨⟨hb, rfl⟩, hw⟩, hc⟩ := hc
        simp only [notWordBoundary, hh, beq_iff_eq] at hb
        simp only [Option.some.injEq] at hif
        exact ⟨w, c, rest, rfl, hb, hw, hc, hif.symm⟩
      · cases hif
    · rintro ⟨w', c', rest', heq, hb, hw, hc, hn⟩
      simp only [List.cons.injEq] at heq
      obtain ⟨rfl, rfl, rfl, rfl⟩ := heq
      simp [notWordBoundary, hh, hb, hw, hc, hn]
  · rename_i hne
    constructor
    · intro h
      cases h
    · rintro ⟨w, c, rest, rfl, _⟩
      exact absurd rfl (hne _ _ _ _)

theorem reHashTag_bounded : Pattern.Bounded reHashTag := by
  intro prev s n h
  obtain ⟨w, c, rest, rfl, _, _, _, rfl⟩ := (reHashTag_eq_some prev s n).mp h
  have := (List.takeWhile_prefix isTagChar (l := rest)).length_le
  simp only [List.length_cons]
  omega

theorem take_length_takeWhile (q : Char → Bool) (l : Str) :
    l.take (l.takeWhile q).length = l.takeWhile q :=
  (List.prefix_iff_eq_take.mp (List.takeWhile_prefix q)).symm

theorem reHashTag_hit_shape (prev : Option Char) (c : Char) (rest : Str) (n : Nat)
    (h : reHashTag prev (c :: rest) = some (n + 1)) :
    c = '#' ∧ n ≤ rest.length ∧ isWordAt prev = false ∧
      ∃ w c2 rest2, rest = w :: c2 :: rest2 ∧ isWord w = true ∧ isTagChar c2 = true ∧
        rest.take n = w :: c2 :: rest2.takeWhile isTagChar ∧
        rest.drop n = rest2.dropWhile isTagChar := by
  obtain ⟨w, c2, rest2, heq, hprev, hw, hc, hn⟩ := (reHashTag_eq_some prev _ _).mp h
  simp only [List.cons.injEq] at heq
  obtain ⟨rfl, rfl⟩ := heq
  have hn2 : n = 2 + (rest2.takeWhile isTagChar).length := by omega
  have hle := (List.takeWhile_prefix isTagChar (l := rest2)).length_le
  refine ⟨rfl, ?_, hprev, w, c2, rest2, rfl, hw, hc, ?_, ?_⟩
  · simp only [List.length_cons]
    omega
  · rw [hn2, show 2 + (rest2.takeWhile isTagChar).length =
      (rest2.takeWhile isTagChar).length + 1 + 1 by omega]
    simp only [List.take_succ_cons, take_length_takeWhile]
  · rw [hn2, show 2 + (rest2.takeWhile isTagChar).length =
      (rest2.takeWhile isTagChar).length + 1 + 1 by omega]
    simp only [List.drop_succ_cons]
    have h1 := List.takeWhile_append_dropWhile isTagChar rest2
    have h2 := List.take_append_drop (rest2.takeWhile isTagChar).length rest2
    rw [take_length_takeWhile] at h2
    exact List.append_cancel_left (h2.trans h1.symm)

theorem reHashTag_take_all_tagChar (prev : Option Char) (c : Char) (rest : Str) (n : Nat)
    (h : reHashTag prev (c :: rest) = some (n + 1)) :
    ∀ x ∈ rest.take n, isTagChar x = true := by
  obtain ⟨_, _, _, w, c2, rest2, _, hw, hc, htake, _⟩ := reHashTag_hit_shape prev c rest n h
  intro x hx
  rw [htake] at hx
  simp only [List.mem_cons] at hx
  rcases hx with rfl | rfl | hx
  · exact isTagChar_of_isWord _ hw
  · exact hc
  · exact (List.mem_takeWhile_imp hx)

theorem hit_mem_scan_reHashTag_aux (k : Nat) :
    ∀ (s : Str), s.length ≤ k → ∀ (pos : Nat) (prev : Option Char) (i : Nat) (tok : Str),
      (Piece.hit i tok ∈ scan reHashTag 0 pos prev s ↔
        ∃ pre suf n, s = pre ++ suf ∧ i = pos + pre.length ∧
          reHashTag (lastOr prev pre) suf = some n ∧ tok = suf.take n) := by
  induction k with
  | zero =>
    intro s hs pos prev i tok
    have : s = [] := List.length_eq_zero.mp (Nat.le_zero.mp hs)
    subst this
    constructor
    · intro h
      simp [scan] at h
    · rintro ⟨pre, suf, n, hs, _, hm, _⟩
      have hsuf : suf = [] := (List.append_eq_nil.mp hs.symm).2
      subst hsuf
      obtain ⟨w, c, rest, h0, _⟩ := (reHashTag_eq_some _ _ _).mp hm
      cases h0
  | succ k ih =>
    intro s hs pos prev i tok
    cases s with
    | nil =>
      constructor
      · intro h
        simp [scan] at h
      · rintro ⟨pre, suf, n, hs, _, hm, _⟩
        have hsuf : suf = [] := (List.append_eq_nil.mp hs.symm).2
        subst hsuf
        obtain ⟨w, c, rest, h0, _⟩ := (reHashTag_eq_some _ _ _).mp hm
        cases h0
    | cons c rest =>
      have hrest : rest.length ≤ k := by simpa using hs
      by_cases hm : ∃ n, reHashTag prev (c :: rest) = some (n + 1)
      · obtain ⟨n, hn⟩ := hm
        obtain ⟨hc, hb, _, _⟩ := reHashTag_hit_shape prev c rest n hn
        have hall := reHashTag_take_all_tagChar prev c rest n hn
        have htl : (rest.take n).length = n := by simp [hb]
        rw [scan_zero_hit _ _ _ _ _ _ hn hb, List.mem_cons]
        have hdrop : (rest.drop n).length ≤ k := by
          simp only [List.length_drop]
          omega
        rw [ih (rest.drop n) hdrop]
        constructor
        · rintro (heq | ⟨pre, suf, n2, hs2, hi, hm2, htok⟩)
          · simp only [Piece.hit.injEq] at heq
            obtain ⟨rfl, rfl⟩ := heq
            exact ⟨[], c :: rest, n + 1, rfl, rfl, hn, rfl⟩
          · refine ⟨c :: (rest.take n ++ pre), suf, n2, ?_, ?_, ?_, htok⟩
            · rw [List.cons_append, List.append_assoc, ← hs2, List.take_append_drop]
            · simp only [List.length_cons, List.length_append, htl]
              omega
            · show reHashTag (lastOr (some c) (rest.take n ++ pre)) suf = some n2
              rw [lastOr_append]
              exact hm2
        · rintro ⟨pre, suf, n2, hs2, hi, hm2, htok⟩
          cases pre with
          | nil =>
            left
            simp only [List.nil_append] at hs2
            subst hs2
            have : some n2 = some (n + 1) := hm2.symm.trans hn
            simp only [Option.some.injEq] at this
            subst this
            simp [hi, htok]
          | cons c0 pre2 =>
            right
            simp only [List.cons_append, List.cons.injEq] at hs2
            obtain ⟨rfl, hrs⟩ := hs2
            obtain ⟨w, c2, rest2, hsuf, _⟩ := (reHashTag_eq_some _ _ _).mp hm2
            have hle : n ≤ pre2.length := by
              by_contra hlt
              have hmem : '#' ∈ rest.take n := by
                rw [hrs, hsuf, List.take_append_eq_append_take]
                apply List.mem_append_right
                have : n - pre2.length = (n - pre2.length - 1) + 1 := by omega
                rw [this]
                simp
              have := hall _ hmem
              rw [isTagChar_hash] at this
              cases this
            refine ⟨pre2.drop n, suf, n2, ?_, ?_, ?_, htok⟩
            · rw [hrs, List.drop_append_of_le_length hle]
            · simp only [List.length_cons, List.length_drop] at hi ⊢
              omega
            · have htake : rest.take n = pre2.take n := by
                rw [hrs, List.take_append_of_le_length hle]
              rw [htake, ← lastOr_append, List.take_append_drop]
              exact hm2
      · have hk : ∀ n, reHashTag prev (c :: rest) ≠ some (n + 1) := fun n hn => hm ⟨n, hn⟩
        rw [scan_zero_keep _ _ _ _ _ hk, List.mem_cons, ih rest hrest]
        constructor
        · rintro (heq | ⟨pre, suf, n2, hs2, hi, hm2, htok⟩)
          · cases heq
          · refine ⟨c :: pre, suf, n2, ?_, ?_, hm2, htok⟩
            · rw [hs2]
              rfl
            · simp only [List.length_cons]
              omega
        · rintro ⟨pre, suf, n2, hs2, hi, hm2, htok⟩
          cases pre with
          | nil =>
            simp only [List.nil_append] at hs2
            subst hs2
            obtain ⟨w, c2, rest2, _, _, _, _, hn2⟩ := (reHashTag_eq_some _ _ _).mp hm2
            have hm3 : reHashTag prev (c :: rest) = some n2 := hm2
            exact absurd (by rw [hm3, hn2]; congr 1; omega)
              (hk (2 + (rest2.takeWhile isTagChar).length))
          | cons c0 pre2 =>
            right
            simp only [List.cons_append, List.cons.injEq] at hs2
            obtain ⟨rfl, hrs⟩ := hs2
            refine ⟨pre2, suf, n2, hrs, ?_, hm2, htok⟩
            simp only [List.length_cons] at hi
            omega

theorem hit_mem_pieces_reHashTag (pre suf : Str) (tok : Str) :
    Piece.hit pre.length tok ∈ pieces reHashTag (pre ++ suf) ↔
      ∃ n, reHashTag pre.getLast? suf = some n ∧ tok = suf.take n := by
  unfold pieces
  rw [hit_mem_scan_reHashTag_aux (pre ++ suf).length (pre ++ suf) (Nat.le_refl _)]
  constructor
  · rintro ⟨pre2, suf2, n, hs, hi, hm, htok⟩
    have hl : pre.length = pre2.length := by simpa using hi
    obtain ⟨rfl, rfl⟩ := List.append_inj hs hl
    rw [lastOr_none_eq_getLast?] at hm
    exact ⟨n, hm, htok⟩
  · rintro ⟨n, hm, htok⟩
    refine ⟨pre, suf, n, rfl, by simp, ?_, htok⟩
    rw [lastOr_none_eq_getLast?]
    exact hm

/-- C2 (as amended): for every text and every '#' in it (the text is
`pre ++ '#' :: post`), the recognizer reports the token `tok` at the offset of
that '#' if and only if the '#' is not immediately preceded by a word character
(the start of the text and punctuation are allowed), is immediately followed by
a word character `w`, and `w` is followed by at least one character among word
characters, '-', ':', '=', ',' and '.'; the token is then the '#', `w` and the
maximal run of such characters after `w`. So "see #a now" has no token,
"see #ab now" has the token "#ab", and "a#b" has none. -/
theorem tag_token_at_hash :
    (∀ pre post tok : Str,
      (pre.length, tok) ∈ findAllIndexed reHashTag (pre ++ '#' :: post) ↔
        isWordAt pre.getLast? = false ∧
          ∃ w after, post = w :: after ∧ isWord w = true ∧
            after.takeWhile isTagChar ≠ [] ∧ tok = '#' :: w :: after.takeWhile isTagChar) ∧
    FindAllString reHashTag "see #a now".toList = [] ∧
    findAllIndexed reHashTag "see #ab now".toList = [(4, "#ab".toList)] ∧
    FindAllString reHashTag "a#b".toList = [] := by
  refine ⟨fun pre post tok => ?_, by decide, by decide, by decide⟩
  rw [mem_findAllIndexed, hit_mem_pieces_reHashTag]
  constructor
  · rintro ⟨n, hm, htok⟩
    obtain ⟨w, c, rest, heq, hprev, hw, hc, hn⟩ := (reHashTag_eq_some _ _ _).mp hm
    simp only [List.cons.injEq, true_and] at heq
    subst heq
    refine ⟨hprev, w, c :: rest, rfl, hw, ?_, ?_⟩
    · simp [List.takeWhile_cons, hc]
    · rw [htok, hn, show 3 + (rest.takeWhile isTagChar).length =
        (rest.takeWhile isTagChar).length + 1 + 1 + 1 by omega]
      simp only [List.take_succ_cons, take_length_takeWhile, List.takeWhile_cons, hc, if_true]
  · rintro ⟨hprev, w, after, rfl, hw, hne, htok⟩
    cases after with
    | nil => simp at hne
    | cons c rest =>
      have hc : isTagChar c = true := by
        by_contra hc
        simp [List.takeWhile_cons, hc] at hne
      refine ⟨3 + (rest.takeWhile isTagChar).length,
        (reHashTag_eq_some _ _ _).mpr ⟨w, c, rest, rfl, hprev, hw, hc, rfl⟩, ?_⟩
      rw [htok, show 3 + (rest.takeWhile isTagChar).length =
        (rest.takeWhile isTagChar).length + 1 + 1 + 1 by omega]
      simp only [List.take_succ_cons, take_length_takeWhile, List.takeWhile_cons, hc, if_true]

/-- C2 (counterexample): in "see #a now" the '#' follows a space and is
followed by the single word character 'a', yet the recognizer finds no token
there, nor anywhere in the text. -/
theorem single_character_tag_not_recognized :
    isWordAt ("see ".toList).getLast? = false ∧ isWord 'a' = true ∧
      findAllIndexed reHashTag ("see ".toList ++ '#' :: "a now".toList) = [] ∧
      FindAllString reHashTag "see #a now".toList = [] := by
  decide

/-- C2 (witness): the token "#x:y=z." found at offset 4 of "see #x:y=z. now". -/
theorem tag_token_at_hash_witness :
    isWordAt ("see ".toList).getLast? = false ∧
      ∃ w after, "x:y=z. now".toList = w :: after ∧ isWord w = true ∧
        after.takeWhile isTagChar ≠ [] ∧
          "#x:y=z.".toList = '#' :: w :: after.takeWhile isTagChar :=
  (tag_token_at_hash.1 "see ".toList "x:y=z. now".toList "#x:y=z.".toList).mp (by decide)

/-! ## Tokens and the clean text -/

theorem prefix_of_render (p : Pattern) (s : Str) :
    ∀ (pos : Nat) (prev : Option Char) (t : Str),
      t <+: renderAll [' '] (scan p 0 pos prev s) → ' ' ∉ t → t <+: s := by
  induction s with
  | nil =>
    intro pos prev t ht _
    simpa [scan, renderAll] using ht
  | cons c rest ih =>
    intro pos prev t ht hsp
    cases t with
    | nil => exact List.nil_prefix
    | cons x t2 =>
      by_cases hm : ∃ n, p prev (c :: rest) = some (n + 1)
      · obtain ⟨n, hn⟩ := hm
        simp only [scan, hn, renderAll, Piece.render, List.singleton_append,
          List.cons_prefix_cons] at ht
        exact absurd (by simp [ht.1]) hsp
      · have hk : ∀ n, p prev (c :: rest) ≠ some (n + 1) := fun n hn => hm ⟨n, hn⟩
        rw [scan_zero_keep _ _ _ _ _ hk] at ht
        simp only [renderAll, Piece.render, List.singleton_append, List.cons_prefix_cons] at ht
        obtain ⟨rfl, ht2⟩ := ht
        have hsp2 : ' ' ∉ t2 := fun h => hsp (List.mem_cons_of_mem _ h)
        exact List.cons_prefix_cons.mpr ⟨rfl, ih _ _ _ ht2 hsp2⟩

theorem infix_of_render_aux (p : Pattern) (hp : p.Bounded) (k : Nat) :
    ∀ (s : Str), s.length ≤ k → ∀ (pos : Nat) (prev : Option Char) (t : Str),
      t ≠ [] → ' ' ∉ t → t <:+: renderAll [' '] (scan p 0 pos prev s) →
      ∃ pre post, s = pre ++ t ++ post ∧ ∀ n, p (lastOr prev pre) (t ++ post) ≠ some (n + 1) := by
  induction k with
  | zero =>
    intro s hs pos prev t hne _ ht
    have : s = [] := List.length_eq_zero.mp (Nat.le_zero.mp hs)
    subst this
    simp [scan, renderAll, hne] at ht
  | succ k ih =>
    intro s hs pos prev t hne hsp ht
    cases s with
    | nil => simp [scan, renderAll, hne] at ht
    | cons c rest =>
      have hrest : rest.length ≤ k := by simpa using hs
      by_cases hm : ∃ n, p prev (c :: rest) = some (n + 1)
      · obtain ⟨n, hn⟩ := hm
        have hb : n ≤ rest.length := by
          have := hp _ _ _ hn
          simp only [List.length_cons] at this
          omega
        rw [scan_zero_hit _ _ _ _ _ _ hn hb] at ht
        simp only [renderAll, Piece.render, List.singleton_append] at ht
        rw [List.infix_cons_iff] at ht
        rcases ht with ht | ht
        · cases t with
          | nil => exact absurd rfl hne
          | cons x t2 =>
            rw [List.cons_prefix_cons] at ht
            exact absurd (by simp [ht.1]) hsp
        · have hdrop : (rest.drop n).length ≤ k := by
            simp only [List.length_drop]
            omega
          obtain ⟨pre, post, hs2, hno⟩ := ih (rest.drop n) hdrop _ _ t hne hsp ht
          refine ⟨c :: (rest.take n ++ pre), post, ?_, ?_⟩
          · simp only [List.cons_append, List.append_assoc, List.cons.injEq, true_and]
            rw [← List.append_assoc pre, ← hs2, List.take_append_drop]
          · intro m
            show p (lastOr (some c) (rest.take n ++ pre)) (t ++ post) ≠ some (m + 1)
            rw [lastOr_append]
            exact hno m
      · have hk : ∀ n, p prev (c :: rest) ≠ some (n + 1) := fun n hn => hm ⟨n, hn⟩
        rw [scan_zero_keep _ _ _ _ _ hk] at ht
        simp only [renderAll, Piece.render, List.singleton_append] at ht
        rw [List.infix_cons_iff] at ht
        rcases ht with ht | ht
        · cases t with
          | nil => exact absurd rfl hne
          | cons x t2 =>
            rw [List.cons_prefix_cons] at ht
            obtain ⟨rfl, ht2⟩ := ht
            have hsp2 : ' ' ∉ t2 := fun h => hsp (List.mem_cons_of_mem _ h)
            obtain ⟨post, hpost⟩ := prefix_of_render p rest _ _ t2 ht2 hsp2
            refine ⟨[], post, ?_, ?_⟩
            · simp [hpost]
            · intro m
              show p prev (x :: t2 ++ post) ≠ some (m + 1)
              rw [List.cons_append, hpost]
              exact hk m
        · obtain ⟨pre, post, hs2, hno⟩ := ih rest hrest _ _ t hne hsp ht
          refine ⟨c :: pre, post, ?_, hno⟩
          rw [hs2]
          rfl

theorem infix_of_ReplaceAllString (p : Pattern) (hp : p.Bounded) (text t : Str)
    (hne : t ≠ []) (hsp : ' ' ∉ t) (ht : t <:+: ReplaceAllString p text [' ']) :
    ∃ pre post, text = pre ++ t ++ post ∧ ∀ n, p pre.getLast? (t ++ post) ≠ some (n + 1) := by
  obtain ⟨pre, post, hs, hno⟩ :=
    infix_of_render_aux p hp text.length text (Nat.le_refl _) 0 none t hne hsp ht
  rw [lastOr_none_eq_getLast?] at hno
  exact ⟨pre, post, hs, hno⟩

theorem reSpaces_bounded : Pattern.Bounded reSpaces := by
  intro prev s n h
  unfold reSpaces at h
  split at h
  · rename_i a b rest
    split at h
    · simp only [Option.some.injEq] at h
      have := (List.takeWhile_prefix isSpaceRE (l := rest)).length_le
      simp only [List.length_cons]
      omega
    · cases h
  · cases h

theorem TrimSpace_inside (s : Str) : TrimSpace s <:+: s :=
  ((List.rdropWhile_prefix unicodeIsSpace _).isInfix).trans
    (List.dropWhile_suffix unicodeIsSpace).isInfix

theorem token_shape (text t : Str) (ht : t ∈ FindAllString reHashTag text) :
    ∃ w c run, t = '#' :: w :: c :: run ∧ isWord w = true ∧ isTagChar c = true ∧
      ∀ x ∈ run, isTagChar x = true := by
  unfold FindAllString at ht
  rw [List.mem_map] at ht
  obtain ⟨⟨i, t2⟩, hmem, rfl⟩ := ht
  rw [mem_findAllIndexed] at hmem
  unfold pieces at hmem
  rw [hit_mem_scan_reHashTag_aux text.length text (Nat.le_refl _)] at hmem
  obtain ⟨pre, suf, n, _, _, hm, htok⟩ := hmem
  obtain ⟨w, c, rest, rfl, _, hw, hc, rfl⟩ := (reHashTag_eq_some _ _ _).mp hm
  refine ⟨w, c, rest.takeWhile isTagChar, ?_, hw, hc, fun x hx => List.mem_takeWhile_imp hx⟩
  show t2 = _
  rw [htok, show 3 + (rest.takeWhile isTagChar).length =
    (rest.takeWhile isTagChar).length + 1 + 1 + 1 by omega]
  simp only [List.take_succ_cons, take_length_takeWhile]

theorem findAllIndexed_eq_hitsOf (p : Pattern) (text : Str) :
    findAllIndexed p text = hitsOf (pieces p text) := by
  unfold findAllIndexed
  generalize pieces p text = ps
  induction ps with
  | nil => rfl
  | cons q qs ih =>
    cases q with
    | keep c => simpa [List.filterMap_cons, hitsOf] using ih
    | hit i m => simpa [List.filterMap_cons, hitsOf] using ih

theorem hitsOf_offset_ge (p : Pattern) (s : Str) :
    ∀ (skip pos : Nat) (prev : Option Char) (h : Nat × Str),
      h ∈ hitsOf (scan p skip pos prev s) → pos ≤ h.1 := by
  induction s with
  | nil =>
    intro skip pos prev h hh
    simp [scan, hitsOf] at hh
  | cons c rest ih =>
    intro skip pos prev h hh
    cases skip with
    | succ k =>
      have := ih k (pos + 1) (some c) h hh
      omega
    | zero =>
      unfold scan at hh
      split at hh
      · simp only [hitsOf, List.mem_cons] at hh
        rcases hh with rfl | hh
        · exact Nat.le_refl _
        · have := ih _ (pos + 1) (some c) h hh
          omega
      · simp only [hitsOf] at hh
        have := ih 0 (pos + 1) (some c) h hh
        omega

theorem replaceOccurrences_cons (repl : Str) (pos : Nat) (c : Char) (rest : Str)
    (H : List (Nat × Str)) (hH : ∀ h ∈ H, pos + 1 ≤ h.1) :
    replaceOccurrences repl pos (c :: rest) H =
      c :: replaceOccurrences repl (pos + 1) rest H := by
  cases H with
  | nil => rfl
  | cons h H2 =>
    obtain ⟨i, m⟩ := h
    have hi : pos + 1 ≤ i := hH (i, m) (List.mem_cons_self _ _)
    simp only [replaceOccurrences]
    have h1 : i - pos = (i - (pos + 1)) + 1 := by omega
    have h2 : i - (pos + 1) + 1 + m.length = (i - (pos + 1) + m.length) + 1 := by omega
    rw [h1, h2, List.take_succ_cons, List.drop_succ_cons]
    rfl

theorem render_eq_replaceOccurrences (p : Pattern) (hp : p.Bounded) (repl : Str) (k : Nat) :
    ∀ (s : Str), s.length ≤ k → ∀ (pos : Nat) (prev : Option Char),
      renderAll repl (scan p 0 pos prev s) =
        replaceOccurrences repl pos s (hitsOf (scan p 0 pos prev s)) := by
  induction k with
  | zero =>
    intro s hs pos prev
    have : s = [] := List.length_eq_zero.mp (Nat.le_zero.mp hs)
    subst this
    rfl
  | succ k ih =>
    intro s hs pos prev
    cases s with
    | nil => rfl
    | cons c rest =>
      have hrest : rest.length ≤ k := by simpa using hs
      by_cases hm : ∃ n, p prev (c :: rest) = some (n + 1)
      · obtain ⟨n, hn⟩ := hm
        have hb : n ≤ rest.length := by
          have := hp _ _ _ hn
          simp only [List.length_cons] at this
          omega
        have hdrop : (rest.drop n).length ≤ k := by
          simp only [List.length_drop]
          omega
        have htl : (rest.take n).length = n := by simp [hb]
        rw [scan_zero_hit _ _ _ _ _ _ hn hb]
        simp only [renderAll, Piece.render, hitsOf, replaceOccurrences, Nat.sub_self,
          List.take_zero, List.nil_append, Nat.zero_add, List.length_cons, htl,
          List.drop_succ_cons]
        rw [ih _ hdrop]
      · have hk : ∀ n, p prev (c :: rest) ≠ some (n + 1) := fun n hn => hm ⟨n, hn⟩
        rw [scan_zero_keep _ _ _ _ _ hk]
        simp only [renderAll, Piece.render, hitsOf, List.singleton_append]
        rw [ih _ hrest, replaceOccurrences_cons]
        intro h hh
        exact hitsOf_offset_ge p rest 0 (pos + 1) (some c) h hh

theorem ReplaceAllString_eq_replaceOccurrences (p : Pattern) (hp : p.Bounded)
    (text repl : Str) :
    ReplaceAllString p text repl = replaceOccurrences repl 0 text (findAllIndexed p text) := by
  rw [findAllIndexed_eq_hitsOf]
  exact render_eq_replaceOccurrences p hp repl text.length text (Nat.le_refl _) 0 none

theorem isTagChar_space : isTagChar ' ' = false := by decide

theorem token_no_space (text t : Str) (ht : t ∈ FindAllString reHashTag text) : ' ' ∉ t := by
  obtain ⟨w, c, run, rfl, hw, hc, hrun⟩ := token_shape text t ht
  have hall : ∀ x ∈ '#' :: w :: c :: run, x = '#' ∨ isTagChar x = true := by
    intro x hx
    simp only [List.mem_cons] at hx
    rcases hx with h | h | h | h
    · exact Or.inl h
    · exact Or.inr (h ▸ isTagChar_of_isWord _ hw)
    · exact Or.inr (h ▸ hc)
    · exact Or.inr (hrun _ h)
  intro hmem
  rcases hall _ hmem with h | h
  · exact absurd h (by decide)
  · rw [isTagChar_space] at h
    cases h

theorem token_infix_clean_text (text t : Str)
    (ht : t ∈ FindAllString reHashTag text) (hin : t <:+: encodeEntryText text) :
    ∃ pre x post, text = pre ++ x :: (t ++ post) ∧ isWord x = true := by
  have hsp := token_no_space text t ht
  obtain ⟨w, c, run, rfl, hw, hc, hrun⟩ := token_shape text t ht
  have hne : ('#' :: w :: c :: run) ≠ [] := by simp
  unfold encodeEntryText at hin
  have h2 := hin.trans (TrimSpace_inside _)
  obtain ⟨pre1, post1, hs1, _⟩ :=
    infix_of_ReplaceAllString reSpaces reSpaces_bounded _ _ hne hsp h2
  have h1 : ('#' :: w :: c :: run) <:+: ReplaceAllString reHashTag text [' '] :=
    ⟨pre1, post1, hs1.symm⟩
  obtain ⟨pre, post, hs, hno⟩ :=
    infix_of_ReplaceAllString reHashTag reHashTag_bounded _ _ hne hsp h1
  have hword : isWordAt pre.getLast? = true := by
    by_contra hnw
    have hnw2 : isWordAt pre.getLast? = false := by simpa using hnw
    have hm := (reHashTag_eq_some pre.getLast? (('#' :: w :: c :: run) ++ post)
      (3 + ((run ++ post).takeWhile isTagChar).length)).mpr
      ⟨w, c, run ++ post, rfl, hnw2, hw, hc, rfl⟩
    exact hno (2 + ((run ++ post).takeWhile isTagChar).length)
      (by rw [hm]; congr 1; omega)
  cases hl : pre.getLast? with
  | none =>
    rw [hl] at hword
    cases hword
  | some x =>
    rw [hl] at hword
    obtain ⟨ys, rfl⟩ := List.getLast?_eq_some_iff.mp hl
    exact ⟨ys, x, post, by simp [hs], hword⟩

theorem count_dropWhile (q : Char → Bool) (x : Char) (hx : q x = false) (l : Str) :
    (l.dropWhile q).count x = l.count x := by
  induction l with
  | nil => rfl
  | cons c l ih =>
    rw [List.dropWhile_cons]
    split
    · rename_i hc
      have hne : c ≠ x := by
        intro e
        rw [e, hx] at hc
        cases hc
      rw [ih, List.count_cons_of_ne (Ne.symm hne)]
    · rfl

theorem count_TrimSpace (x : Char) (hx : unicodeIsSpace x = false) (s : Str) :
    (TrimSpace s).count x = s.count x := by
  unfold TrimSpace List.rdropWhile
  rw [List.count_reverse, count_dropWhile _ x hx, List.count_reverse, count_dropWhile _ x hx]

theorem reSpaces_hit_chars (prev : Option Char) (c : Char) (rest : Str) (n : Nat)
    (h : reSpaces prev (c :: rest) = some (n + 1)) :
    isSpaceRE c = true ∧ ∀ y ∈ rest.take n, isSpaceRE y = true := by
  unfold reSpaces at h
  split at h
  · rename_i a b r heq
    simp only [List.cons.injEq] at heq
    obtain ⟨rfl, rfl⟩ := heq
    split at h
    · rename_i hab
      simp only [Bool.and_eq_true] at hab
      simp only [Option.some.injEq] at h
      have hn : n = (r.takeWhile isSpaceRE).length + 1 := by omega
      refine ⟨hab.1, ?_⟩
      rw [hn, List.take_succ_cons, take_length_takeWhile]
      intro y hy
      simp only [List.mem_cons] at hy
      rcases hy with rfl | hy
      · exact hab.2
      · exact List.mem_takeWhile_imp hy
    · cases h
  · cases h

theorem count_render_reSpaces (x : Char) (hx : isSpaceRE x = false) (k : Nat) :
    ∀ (s : Str), s.length ≤ k → ∀ (pos : Nat) (prev : Option Char),
      (renderAll [' '] (scan reSpaces 0 pos prev s)).count x = s.count x := by
  have hsp : (' ' : Char) ≠ x := by
    intro e
    rw [← e] at hx
    exact absurd hx (by decide)
  induction k with
  | zero =>
    intro s hs pos prev
    have : s = [] := List.length_eq_zero.mp (Nat.le_zero.mp hs)
    subst this
    rfl
  | succ k ih =>
    intro s hs pos prev
    cases s with
    | nil => rfl
    | cons c rest =>
      have hrest : rest.length ≤ k := by simpa using hs
      by_cases hm : ∃ n, reSpaces prev (c :: rest) = some (n + 1)
      · obtain ⟨n, hn⟩ := hm
        have hb : n ≤ rest.length := by
          have := reSpaces_bounded _ _ _ hn
          simp only [List.length_cons] at this
          omega
        have hdrop : (rest.drop n).length ≤ k := by
          simp only [List.length_drop]
          omega
        obtain ⟨hc, hall⟩ := reSpaces_hit_chars prev c rest n hn
        have hcx : c ≠ x := by
          intro e
          rw [e, hx] at hc
          cases hc
        have hzero : (rest.take n).count x = 0 := by
          rw [List.count_eq_zero]
          intro hmem
          have := hall x hmem
          rw [hx] at this
          cases this
        rw [scan_zero_hit _ _ _ _ _ _ hn hb]
        simp only [renderAll, Piece.render, List.singleton_append]
        rw [List.count_cons_of_ne (Ne.symm hsp), ih _ hdrop,
          List.count_cons_of_ne (Ne.symm hcx)]
        conv_rhs => rw [← List.take_append_drop n rest, List.count_append, hzero]
        omega
      · have hk : ∀ n, reSpaces prev (c :: rest) ≠ some (n + 1) := fun n hn => hm ⟨n, hn⟩
        rw [scan_zero_keep _ _ _ _ _ hk]
        simp only [renderAll, Piece.render, List.singleton_append, List.count_cons]
        rw [ih _ hrest]

theorem count_hash_render_reHashTag (k : Nat) :
    ∀ (s : Str), s.length ≤ k → ∀ (pos : Nat) (prev : Option Char),
      (renderAll [' '] (scan reHashTag 0 pos prev s)).count '#' +
        (hitsOf (scan reHashTag 0 pos prev s)).length = s.count '#' := by
  induction k with
  | zero =>
    intro s hs pos prev
    have : s = [] := List.length_eq_zero.mp (Nat.le_zero.mp hs)
    subst this
    rfl
  | succ k ih =>
    intro s hs pos prev
    cases s with
    | nil => rfl
    | cons c rest =>
      have hrest : rest.length ≤ k := by simpa using hs
      by_cases hm : ∃ n, reHashTag prev (c :: rest) = some (n + 1)
      · obtain ⟨n, hn⟩ := hm
        obtain ⟨hc, hb, _, _⟩ := reHashTag_hit_shape prev c rest n hn
        have hall := reHashTag_take_all_tagChar prev c rest n hn
        have hdrop : (rest.drop n).length ≤ k := by
          simp only [List.length_drop]
          omega
        have hzero : (rest.take n).count '#' = 0 := by
          rw [List.count_eq_zero]
          intro hmem
          have := hall _ hmem
          rw [isTagChar_hash] at this
          cases this
        have hih := ih _ hdrop (pos + (n + 1)) (lastOr (some c) (rest.take n))
        rw [scan_zero_hit _ _ _ _ _ _ hn hb]
        simp only [renderAll, Piece.render, List.singleton_append, hitsOf, List.length_cons]
        have hcount : (c :: rest).count '#' = rest.count '#' + 1 := by
          rw [hc, List.count_cons_self]
        rw [List.count_cons_of_ne (by decide), hcount]
        conv_rhs => rw [← List.take_append_drop n rest, List.count_append, hzero]
        omega
      · have hk : ∀ n, reHashTag prev (c :: rest) ≠ some (n + 1) := fun n hn => hm ⟨n, hn⟩
        have hih := ih _ hrest (pos + 1) (some c)
        rw [scan_zero_keep _ _ _ _ _ hk]
        simp only [renderAll, Piece.render, List.singleton_append, hitsOf, List.count_cons]
        omega

theorem count_hash_clean_text (text : Str) :
    (encodeEntryText text).count '#' + (FindAllString reHashTag text).length =
      text.count '#' := by
  have h1 := count_hash_render_reHashTag text.length text (Nat.le_refl _) 0 none
  have h2 := count_render_reSpaces '#' (by decide) _
    (ReplaceAllString reHashTag text [' ']) (Nat.le_refl _) 0 none
  have h3 := count_TrimSpace '#' (by decide)
    (ReplaceAllString reSpaces (ReplaceAllString reHashTag text [' ']) [' '])
  have hlen : (FindAllString reHashTag text).length =
      (hitsOf (scan reHashTag 0 0 none text)).length := by
    unfold FindAllString
    rw [List.length_map, findAllIndexed_eq_hitsOf]
    rfl
  unfold encodeEntryText
  dsimp only
  rw [h3, hlen]
  unfold ReplaceAllString pieces at h2 ⊢
  rw [h2]
  exact h1

/-- C5 (as amended): for every text, `encodeEntryText(text)` is the text with
every occurrence the recognizer matched replaced by one space (the rest
copied), then collapsed and trimmed; so the clean text has as many '#' as text
has '#' that start no token, and a token the recognizer matched in text occurs
as a substring of the clean text only if text also holds the same characters
immediately after a word character, at an offset where the recognizer matches
nothing. -/
theorem token_in_clean_text_was_unmatched (text : Str) :
    encodeEntryText text =
        TrimSpace (ReplaceAllString reSpaces
          (replaceOccurrences [' '] 0 text (findAllIndexed reHashTag text)) [' ']) ∧
      (encodeEntryText text).count '#' + (FindAllString reHashTag text).length =
        text.count '#' ∧
      ∀ t ∈ FindAllString reHashTag text, t <:+: encodeEntryText text →
        ∃ pre x post, text = pre ++ x :: (t ++ post) ∧ isWord x = true ∧
          ∀ tok, (pre.length + 1, tok) ∉ findAllIndexed reHashTag text := by
  refine ⟨?_, count_hash_clean_text text, ?_⟩
  · unfold encodeEntryText
    dsimp only
    rw [ReplaceAllString_eq_replaceOccurrences reHashTag reHashTag_bounded]
  · intro t ht hin
    obtain ⟨pre, x, post, hs, hx⟩ := token_infix_clean_text text t ht hin
    refine ⟨pre, x, post, hs, hx, ?_⟩
    intro tok hmem
    have hs2 : text = (pre ++ [x]) ++ (t ++ post) := by simp [hs]
    rw [mem_findAllIndexed, hs2] at hmem
    have hl : pre.length + 1 = (pre ++ [x]).length := by simp
    rw [hl, hit_mem_pieces_reHashTag] at hmem
    obtain ⟨n, hm, _⟩ := hmem
    obtain ⟨_, _, _, _, hprev, _⟩ := (reHashTag_eq_some _ _ _).mp hm
    have hlast : (pre ++ [x]).getLast? = some x := by simp
    rw [hlast] at hprev
    have hx2 : isWordAt (some x) = true := hx
    rw [hx2] at hprev
    cases hprev

/-- C5 (witness): in "a#bc #bc" the token "#bc" is matched at offset 5 and
replaced; the clean text "a#bc" holds the occurrence after the word character
'a', at offset 1, where nothing is matched. -/
theorem token_in_clean_text_was_unmatched_witness :
    encodeEntryText "a#bc #bc".toList = "a#bc".toList ∧
      (encodeEntryText "a#bc #bc".toList).count '#' + 1 = 2 ∧
      ∃ pre x post, "a#bc #bc".toList = pre ++ x :: ("#bc".toList ++ post) ∧
        isWord x = true ∧
        ∀ tok, (pre.length + 1, tok) ∉ findAllIndexed reHashTag "a#bc #bc".toList :=
  ⟨(token_in_clean_text_was_unmatched "a#bc #bc".toList).1.trans (by decide),
   (token_in_clean_text_was_unmatched "a#bc #bc".toList).2.1,
   (token_in_clean_text_was_unmatched "a#bc #bc".toList).2.2 "#bc".toList (by decide)
    ⟨"a".toList, [], by decide⟩⟩

/-- C5 (counterexample): for the text "a#bc #bc" the recognizer returns the
token "#bc", and the clean text is "a#bc", of which "#bc" is a substring. -/
theorem clean_text_contains_matched_token :
    FindAllString reHashTag "a#bc #bc".toList = ["#bc".toList] ∧
      encodeEntryText "a#bc #bc".toList = "a#bc".toList ∧
      "#bc".toList <:+: encodeEntryText "a#bc #bc".toList :=
  ⟨by decide, by decide, ⟨"a".toList, [], by decide⟩⟩

/-! ## White space in the clean text -/

theorem unicodeIsSpace_of_isSpaceRE (c : Char) (h : isSpaceRE c = true) :
    unicodeIsSpace c = true := by
  simp only [isSpaceRE, Bool.or_eq_true, beq_iff_eq] at h
  rcases h with (((h | h) | h) | h) | h <;> subst h <;> decide

theorem reSpaces_eq_none_of_head (prev : Option Char) (d : Char) (rest : Str)
    (h : isSpaceRE d = false) (n : Nat) : reSpaces prev (d :: rest) ≠ some n := by
  unfold reSpaces
  split
  · rename_i a b r heq
    simp only [List.cons.injEq] at heq
    obtain ⟨rfl, _⟩ := heq
    simp [h]
  · simp

theorem render_reSpaces_head (s : Str) (pos : Nat) (prev : Option Char) (x : Char)
    (hx : (renderAll [' '] (scan reSpaces 0 pos prev s)).head? = some x)
    (hsp : isSpaceRE x = true) : ∃ d rest, s = d :: rest ∧ isSpaceRE d = true := by
  cases s with
  | nil => simp [scan, renderAll] at hx
  | cons d rest =>
    by_cases hd : isSpaceRE d = true
    · exact ⟨d, rest, rfl, hd⟩
    · have hd2 : isSpaceRE d = false := by simpa using hd
      rw [scan_zero_keep _ _ _ _ _ (fun n => reSpaces_eq_none_of_head prev d rest hd2 (n + 1))]
        at hx
      simp only [renderAll, Piece.render, List.singleton_append, List.head?_cons,
        Option.some.injEq] at hx
      subst hx
      rw [hd2] at hsp
      cases hsp

theorem reSpaces_hit_shape (prev : Option Char) (c : Char) (rest : Str) (n : Nat)
    (h : reSpaces prev (c :: rest) = some (n + 1)) :
    n ≤ rest.length ∧ ∀ d ∈ (rest.drop n).head?, isSpaceRE d = false := by
  unfold reSpaces at h
  split at h
  · rename_i a b r heq
    simp only [List.cons.injEq] at heq
    obtain ⟨rfl, rfl⟩ := heq
    split at h
    · simp only [Option.some.injEq] at h
      have hle := (List.takeWhile_prefix isSpaceRE (l := r)).length_le
      have hn : n = (r.takeWhile isSpaceRE).length + 1 := by omega
      refine ⟨by simp only [List.length_cons]; omega, ?_⟩
      rw [hn, List.drop_succ_cons]
      have h1 := List.takeWhile_append_dropWhile isSpaceRE r
      have h2 := List.take_append_drop (r.takeWhile isSpaceRE).length r
      rw [take_length_takeWhile] at h2
      have h3 : r.drop (r.takeWhile isSpaceRE).length = r.dropWhile isSpaceRE :=
        List.append_cancel_left (h2.trans h1.symm)
      rw [h3]
      intro d hd
      have := List.head?_dropWhile_not isSpaceRE r
      rw [Option.mem_def] at hd
      rw [hd] at this
      simpa using this
    · cases h
  · cases h

theorem render_reSpaces_chain_aux (k : Nat) :
    ∀ (s : Str), s.length ≤ k → ∀ (pos : Nat) (prev : Option Char),
      List.Chain' (fun a b => ¬ (isSpaceRE a = true ∧ isSpaceRE b = true))
        (renderAll [' '] (scan reSpaces 0 pos prev s)) := by
  induction k with
  | zero =>
    intro s hs pos prev
    have : s = [] := List.length_eq_zero.mp (Nat.le_zero.mp hs)
    subst this
    simp [scan, renderAll]
  | succ k ih =>
    intro s hs pos prev
    cases s with
    | nil => simp [scan, renderAll]
    | cons c rest =>
      have hrest : rest.length ≤ k := by simpa using hs
      by_cases hm : ∃ n, reSpaces prev (c :: rest) = some (n + 1)
      · obtain ⟨n, hn⟩ := hm
        obtain ⟨hb, hhead⟩ := reSpaces_hit_shape prev c rest n hn
        rw [scan_zero_hit _ _ _ _ _ _ hn hb]
        simp only [renderAll, Piece.render, List.singleton_append]
        rw [List.chain'_cons']
        have hdrop : (rest.drop n).length ≤ k := by
          simp only [List.length_drop]
          omega
        refine ⟨?_, ih _ hdrop _ _⟩
        intro x hx hboth
        rw [Option.mem_def] at hx
        obtain ⟨d, r, hdr, hd⟩ := render_reSpaces_head _ _ _ x hx hboth.2
        have := hhead d (by rw [hdr]; rfl)
        rw [hd] at this
        cases this
      · have hk : ∀ n, reSpaces prev (c :: rest) ≠ some (n + 1) := fun n hn => hm ⟨n, hn⟩
        rw [scan_zero_keep _ _ _ _ _ hk]
        simp only [renderAll, Piece.render, List.singleton_append]
        rw [List.chain'_cons']
        refine ⟨?_, ih _ hrest _ _⟩
        intro x hx hboth
        rw [Option.mem_def] at hx
        obtain ⟨d, r, hdr, hd⟩ := render_reSpaces_head _ _ _ x hx hboth.2
        subst hdr
        apply hk (1 + (r.takeWhile isSpaceRE).length)
        simp only [reSpaces, hboth.1, hd, Bool.and_self, if_true, Option.some.injEq]
        omega

theorem ReplaceAllString_reSpaces_chain (s : Str) :
    List.Chain' (fun a b => ¬ (isSpaceRE a = true ∧ isSpaceRE b = true))
      (ReplaceAllString reSpaces s [' ']) :=
  render_reSpaces_chain_aux s.length s (Nat.le_refl _) 0 none

theorem chain_inside {R : Char → Char → Prop} {l l₁ : Str} (h : List.Chain' R l)
    (hin : l₁ <:+: l) : List.Chain' R l₁ := by
  obtain ⟨a, b, rfl⟩ := hin
  exact h.left_of_append.right_of_append

theorem TrimSpace_head (s : Str) (c : Char) (h : (TrimSpace s).head? = some c) :
    unicodeIsSpace c = false := by
  unfold TrimSpace at h
  obtain ⟨t, ht⟩ := List.rdropWhile_prefix unicodeIsSpace (s.dropWhile unicodeIsSpace)
  have hd := List.head?_dropWhile_not unicodeIsSpace s
  rw [← ht] at hd
  cases hr : List.rdropWhile unicodeIsSpace (s.dropWhile unicodeIsSpace) with
  | nil =>
    rw [hr] at h
    cases h
  | cons x xs =>
    rw [hr] at h hd
    simp only [List.head?_cons, Option.some.injEq] at h
    subst h
    simpa using hd

theorem TrimSpace_getLast (s : Str) (c : Char) (h : (TrimSpace s).getLast? = some c) :
    unicodeIsSpace c = false := by
  unfold TrimSpace at h
  have hne : List.rdropWhile unicodeIsSpace (s.dropWhile unicodeIsSpace) ≠ [] := by
    intro h0
    rw [h0] at h
    cases h
  have hl := List.rdropWhile_last_not unicodeIsSpace (s.dropWhile unicodeIsSpace) hne
  rw [List.getLast?_eq_getLast _ hne] at h
  simp only [Option.some.injEq] at h
  rw [h] at hl
  simpa using hl

/-- C8: for every text the clean text `encodeEntryText(text)` has no two
adjacent whitespace characters (space, tab, newline, form feed, carriage
return), in particular no double space, and neither begins nor ends with a
whitespace character. -/
theorem clean_text_whitespace (text : Str) :
    (∀ a b, [a, b] <:+: encodeEntryText text → ¬ (isSpaceRE a = true ∧ isSpaceRE b = true)) ∧
      ¬ ([' ', ' '] <:+: encodeEntryText text) ∧
      (∀ c, (encodeEntryText text).head? = some c → isSpaceRE c = false) ∧
      (∀ c, (encodeEntryText text).getLast? = some c → isSpaceRE c = false) := by
  have hchain : List.Chain' (fun a b => ¬ (isSpaceRE a = true ∧ isSpaceRE b = true))
      (encodeEntryText text) :=
    chain_inside (ReplaceAllString_reSpaces_chain _) (TrimSpace_inside _)
  have hpair : ∀ a b, [a, b] <:+: encodeEntryText text →
      ¬ (isSpaceRE a = true ∧ isSpaceRE b = true) := by
    intro a b hab
    have := chain_inside hchain hab
    simpa using this
  have hnot : ∀ c, unicodeIsSpace c = false → isSpaceRE c = false := by
    intro c hc
    by_contra h
    have h2 : isSpaceRE c = true := by simpa using h
    rw [unicodeIsSpace_of_isSpaceRE c h2] at hc
    cases hc
  refine ⟨hpair, fun h => hpair ' ' ' ' h ⟨by decide, by decide⟩, ?_, ?_⟩
  · intro c hc
    exact hnot c (TrimSpace_head _ c hc)
  · intro c hc
    exact hnot c (TrimSpace_getLast _ c hc)

end Production
